import Mathlib

/-!
Verification of the SKU extraction and table-layout engine of
`process_pdf.py` (pdf-sku-label-tool).

Modelling conventions: Python strings are Lean `String` (a `List Char`
underneath; case mapping and character classes use the ASCII fragment),
page coordinates and font metrics are exact rationals, and fallible
integer parsing returns `Option Int`.  Text measurement
(`fitz.get_text_length`) is modelled additively from a per-character
advance-width table, which is the behaviour of the base-14 `helv` font:
the width of a string is the sum of its characters' widths scaled by the
font size over 1000.
-/

attribute [local semireducible] Rat.add Rat.sub Rat.mul Rat.inv

set_option maxRecDepth 16000

/-! ## Python string primitives -/

/-- Whitespace recognised by Python `str.split()` / `str.strip()`
(ASCII subset: space, tab, newline, carriage return, vertical tab, form feed). -/
def pyWs (c : Char) : Bool :=
  c == ' ' || c == '\t' || c == '\n' || c == '\r' || c == Char.ofNat 11 || c == Char.ofNat 12

/-- Python `str.strip()` on a character list. -/
def pyStripCh (cs : List Char) : List Char :=
  ((cs.dropWhile pyWs).reverse.dropWhile pyWs).reverse

/-- Python `str.strip()`. -/
def pyStrip (s : String) : String := String.mk (pyStripCh s.data)

/-- Split a character list at every character satisfying `p`, keeping empty
groups, so `n` separators yield `n+1` groups (like Python `str.split(sep)`). -/
def splitOnPred (p : Char → Bool) : List Char → List (List Char)
  | [] => [[]]
  | c :: cs =>
    if p c then [] :: splitOnPred p cs
    else
      match splitOnPred p cs with
      | [] => [[c]]
      | g :: gs => (c :: g) :: gs

/-- Python `text.split` on the newline character: pieces with empties kept. -/
def splitLines (s : String) : List String :=
  (splitOnPred (· == '\n') s.data).map String.mk

/-- Python `str.split()` with no argument: split on whitespace runs, dropping
empty pieces. -/
def pySplitCh (cs : List Char) : List (List Char) :=
  (splitOnPred pyWs cs).filter (fun g => !g.isEmpty)

/-- Python `str.split()` on a `String`. -/
def pySplit (s : String) : List String := (pySplitCh s.data).map String.mk

/-- Substring test on character lists (`needle` occurs contiguously in `hay`). -/
def infChars (needle hay : List Char) : Bool :=
  needle.isPrefixOf hay ||
    match hay with
    | [] => false
    | _ :: t => infChars needle t

/-- Python `needle in hay` for strings. -/
def containsStr (hay needle : String) : Bool := infChars needle.data hay.data

/-- Python `str.lower()` (ASCII). -/
def lowerStr (s : String) : String := String.mk (s.data.map Char.toLower)

/-- Python `str.upper()` (ASCII). -/
def upperStr (s : String) : String := String.mk (s.data.map Char.toUpper)

/-- Python `s.startswith(pre)`. -/
def startsWithStr (s pre : String) : Bool := pre.data.isPrefixOf s.data

/-- Python `s.endswith(suf)`. -/
def endsWithStr (s suf : String) : Bool := suf.data.isSuffixOf s.data

/-- Numeric value of a digit run (most significant first). -/
def digitsVal (cs : List Char) : ℕ :=
  cs.foldl (fun a c => a * 10 + (c.toNat - 48)) 0

/-- Digit-and-underscore tail of a Python integer literal: underscores must sit
between digits.  Returns the accumulated value. -/
def pyIntTail (acc : ℕ) : List Char → Option ℕ
  | [] => some acc
  | '_' :: c :: rest =>
    if c.isDigit then pyIntTail (acc * 10 + (c.toNat - 48)) rest else none
  | '_' :: [] => none
  | c :: rest =>
    if c.isDigit then pyIntTail (acc * 10 + (c.toNat - 48)) rest else none

/-- Python `int(token)` for a whitespace-free token: optional sign, then a
nonempty digit run with optional single underscores between digits; anything
else raises `ValueError`, modelled as `none`. -/
def pyInt (s : String) : Option ℤ :=
  match s.data with
  | '-' :: c :: rest =>
    if c.isDigit then (pyIntTail (c.toNat - 48) rest).map (fun n => -(n : ℤ)) else none
  | '+' :: c :: rest =>
    if c.isDigit then (pyIntTail (c.toNat - 48) rest).map (fun n => (n : ℤ)) else none
  | c :: rest =>
    if c.isDigit then (pyIntTail (c.toNat - 48) rest).map (fun n => (n : ℤ)) else none
  | [] => none

/-- Python `str.isdigit()` (ASCII digits). -/
def isDigitStr (s : String) : Bool := !s.data.isEmpty && s.data.all Char.isDigit

/-- Python `str.isalnum()` on a character list (ASCII letters and digits). -/
def isAlnumCh (cs : List Char) : Bool :=
  !cs.isEmpty && cs.all (fun c => c.isAlpha || c.isDigit)

/-- Python `str.isalnum()`. -/
def isAlnumStr (s : String) : Bool := isAlnumCh s.data

/-- Collapse every run of dashes to a single dash (the regex substitution
replacing one-or-more dashes by one dash). -/
def collapseDashes (cs : List Char) : List Char :=
  ((cs.foldl
      (fun (st : List Char × Bool) c =>
        if c == '-' then (if st.2 then st else ('-' :: st.1, true))
        else (c :: st.1, false))
      ([], false)).1).reverse

/-- Python `str.strip` with the dash character. -/
def stripDashes (cs : List Char) : List Char :=
  ((cs.dropWhile (· == '-')).reverse.dropWhile (· == '-')).reverse

/-- Join character lists with a single space between them. -/
def interSpace : List (List Char) → List Char
  | [] => []
  | [p] => p
  | p :: ps => p ++ ' ' :: interSpace ps

/-- Python `" ".join(parts)`. -/
def joinSpace (ls : List String) : String :=
  String.mk (interSpace (ls.map String.data))

/-- Whitespace normalisation used for deduplication:
Python `" ".join(s.split())`. -/
def cleanName (s : String) : String := String.mk (interSpace (pySplitCh s.data))

/-- Trailing whitespace removed (Python `str.rstrip()`). -/
def rstripCh (cs : List Char) : List Char :=
  (cs.reverse.dropWhile pyWs).reverse

/-- The maximal trailing digit run of a character list. -/
def trailDigits (cs : List Char) : List Char :=
  (cs.reverse.takeWhile Char.isDigit).reverse

/-- The group captured by the regex tail pattern (lazy gap, captured digit run,
optional trailing whitespace, end of line) when matched against the suffix
`suf` of a line: succeeds iff `suf` minus trailing whitespace ends in a digit,
capturing that maximal digit run. -/
def tailGroup (suf : List Char) : Option ℕ :=
  let r := rstripCh suf
  if (r.getLastD ' ').isDigit && !r.isEmpty then some (digitsVal (trailDigits r)) else none

/-- Left-to-right regex search for an occurrence of `needle` followed by the
tail pattern above: the engine backtracks to later occurrences of `needle`
if the tail fails, exactly like `re.search(re.escape(name) + lazy-digits-end)`. -/
def reSearchQty (needle : List Char) : List Char → Option ℕ
  | [] => if needle.isPrefixOf ([] : List Char) then tailGroup [] else none
  | c :: t =>
    match (if needle.isPrefixOf (c :: t) then tailGroup ((c :: t).drop needle.length) else none) with
    | some n => some n
    | none => reSearchQty needle t

/-! ## Whitelist normalisation (`_match_complex_candidate`, `_normalize_sku_by_whitelist`) -/

/-- Separator character for composite whitelist entries. -/
def interSep (sep : Char) : List (List Char) → List Char
  | [] => []
  | [p] => p
  | p :: ps => p ++ sep :: interSep sep ps

/-- Model of `_match_complex_candidate(sku_raw, candidate)`: a composite
whitelist entry of shape `prefix(part1+part2+...)` matches when the prefix
occurs in the lowercased raw string and for each part the first three letters
(lowercased) and the whole digit run both occur in the raw string. -/
def matchComplexCandidate (sku_raw candidate : String) : Bool :=
  let sku_lower := lowerStr sku_raw
  if !(containsStr candidate "(") || !(endsWithStr candidate ")") then false
  else
    let base := String.mk (candidate.data.takeWhile (· != '('))
    let rest := ((candidate.data.dropWhile (· != '(')).drop 1).dropLast
    let parts := ((splitOnPred (· == '+') rest).filter (fun g => !g.isEmpty)).map String.mk
    if !base.data.isEmpty && !(containsStr sku_lower (lowerStr base)) then false
    else
      parts.all fun part =>
        let letters := part.data.filter Char.isAlpha
        let digits := part.data.filter Char.isDigit
        (letters.isEmpty ||
          (let key := String.mk ((letters.take 3).map Char.toLower)
           key.data.isEmpty || containsStr sku_lower key)) &&
        (digits.isEmpty || containsStr sku_raw (String.mk digits))

/-- Tier 2 of `_normalize_sku_by_whitelist`: whitelist entries that contain the
raw string or are contained in it, in whitelist order. -/
def tier2Candidates (wl : List String) (sku_raw : String) : List String :=
  wl.foldl
    (fun acc name =>
      if containsStr sku_raw name || containsStr name sku_raw then acc ++ [name] else acc)
    []

/-- Tier 3 of `_normalize_sku_by_whitelist`, run over the pool built by tier 2:
append every composite-matching entry not already in the pool. -/
def tier3Pool (wl : List String) (sku_raw : String) (init : List String) : List String :=
  wl.foldl
    (fun acc name =>
      if name ∉ acc ∧ matchComplexCandidate sku_raw name then acc ++ [name] else acc)
    init

/-- The full candidate pool of `_normalize_sku_by_whitelist` (tiers 2 and 3). -/
def poolCandidates (wl : List String) (sku_raw : String) : List String :=
  tier3Pool wl sku_raw (tier2Candidates wl sku_raw)

/-- Model of `_normalize_sku_by_whitelist(sku_raw)` with the whitelist passed
explicitly: exact membership wins, then the tier 2/3 pool must be a singleton,
otherwise the raw string is kept. -/
def normalize_sku_by_whitelist (wl : List String) (sku_raw : String) : String :=
  if wl.isEmpty then sku_raw
  else if sku_raw ∈ wl then sku_raw
  else
    match poolCandidates wl sku_raw with
    | [c] => c
    | _ => sku_raw

/-! ## Text-based extractor (`extract_sku_from_packing_slip`) -/

/-- Loop state of `extract_sku_from_packing_slip`. -/
structure ExtState where
  foundHeader : Bool := false
  headerIdx : Option ℕ := none
  qtyTotalIdx : Option ℕ := none
  curParts : List String := []
  curQty : Option ℤ := none
  skus : List (String × ℤ) := []

/-- Header detection: the line contains "SKU" and "QTY" or "QUANTITY",
case-insensitively. -/
def isHeaderLine (line : String) : Bool :=
  containsStr (upperStr line) "SKU" &&
    (containsStr (upperStr line) "QTY" || containsStr (upperStr line) "QUANTITY")

/-- Quantity parsed after a whitelist entry on the same line: the regex search
for the entry followed by a lazily reached trailing digit run; default 1. -/
def wlLineQty (name line : String) : ℤ :=
  match reSearchQty name.data line.data with
  | some n => (n : ℤ)
  | none => 1

/-- Whitelist entries found verbatim in a line, each with its parsed quantity. -/
def wlLineMatches (wl : List String) (line : String) : List (String × ℤ) :=
  wl.foldl
    (fun acc name =>
      if containsStr line name then acc ++ [(name, wlLineQty name line)] else acc)
    []

/-- Accumulate identifier tokens until the first token parsing as an integer,
which becomes the quantity. -/
def collectParts : List String → List String × Option ℤ
  | [] => ([], none)
  | p :: rest =>
    match pyInt p with
    | some q => ([], some q)
    | none =>
      let pr := collectParts rest
      (p :: pr.1, pr.2)

/-- Keywords that disqualify a short trailing token from being an identifier
continuation. -/
def contKwShort : List String := ["for", "and", "the", "card", "chip"]

/-- Keywords that terminate the continuation scan altogether. -/
def contKwLong : List String :=
  ["sticker", "card", "pack", "sheet", "for", "and", "the", "chip", "key", "metro"]

/-- Scan the following line's tokens from the end for a 2-to-5 character
alphanumeric-after-removing-dashes-and-underscores continuation token. -/
def findContinuation : List String → Option String
  | [] => none
  | p :: rest =>
    let pl := lowerStr p
    let core := p.data.filter (fun c => c != '-' && c != '_')
    if 2 ≤ p.data.length ∧ p.data.length ≤ 5 ∧ isAlnumCh core then
      if contKwShort.any (fun k => containsStr pl k) then findContinuation rest
      else some p
    else if contKwLong.any (fun k => containsStr pl k) then none
    else findContinuation rest

/-- Join identifier parts with dashes when each part is dashed or alphanumeric,
else with spaces; collapse dash runs and strip outer dashes. -/
def assembleName (parts : List String) : String :=
  let joined :=
    if parts.all (fun p => containsStr p "-" || isAlnumStr p) then
      interSep '-' (parts.map String.data)
    else interSpace (parts.map String.data)
  String.mk (stripDashes (collapseDashes joined))

/-- Processing of a line containing the "Ink-" marker. -/
def inkStep (line : String) (next? : Option String) (st : ExtState) : ExtState :=
  let parts := pySplit line
  match parts.findIdx? (fun p => containsStr p "Ink-") with
  | none => st
  | some j =>
    let col := collectParts (parts.drop j)
    if col.1.isEmpty then st
    else
      match col.2 with
      | some qty =>
        let skuParts :=
          match next? with
          | none => col.1
          | some nl =>
            match findContinuation (pySplit (pyStrip nl)).reverse with
            | some p => col.1 ++ [p]
            | none => col.1
        { st with skus := st.skus ++ [(assembleName skuParts, qty)] }
      | none => { st with curParts := col.1 }

/-- Processing of a post-header line without the marker: its first
integer-parsing token completes a pending multi-line identifier. -/
def nonInkStep (line : String) (st : ExtState) : ExtState :=
  match (pySplit line).findSome? pyInt with
  | none => st
  | some q =>
    if st.curParts.isEmpty then st
    else
      { st with
        skus := st.skus ++ [(joinSpace st.curParts, q)], curParts := [], curQty := none }

/-- Blank-line finalisation of a pending identifier with a recorded quantity. -/
def blankStep (st : ExtState) : ExtState :=
  match st.curQty with
  | some q =>
    if st.curParts.isEmpty then st
    else
      { st with
        skus := st.skus ++ [(joinSpace st.curParts, q)], curParts := [], curQty := none }
  | none => st

/-- One iteration of the line loop of `extract_sku_from_packing_slip`. -/
def lineStep (wl : List String) (rawLine : String) (next? : Option String) (i : ℕ)
    (st : ExtState) : ExtState :=
  let line := pyStrip rawLine
  if line = "" then blankStep st
  else if isHeaderLine line then { st with foundHeader := true, headerIdx := some i }
  else
    let st1 :=
      if containsStr (upperStr line) "QTY TOTAL" ∧ st.qtyTotalIdx = none then
        { st with qtyTotalIdx := some i }
      else st
    if !st1.foundHeader then st1
    else
      let matched := wlLineMatches wl line
      if !matched.isEmpty then { st1 with skus := st1.skus ++ matched }
      else if containsStr line "Ink-" then inkStep line next? st1
      else nonInkStep line st1

/-- The line loop, carrying the line index and one line of lookahead. -/
def extractLoop (wl : List String) : List String → ℕ → ExtState → ExtState
  | [], _, st => st
  | l :: rest, i, st => extractLoop wl rest (i + 1) (lineStep wl l rest.head? i st)

/-- End-of-text finalisation of a pending identifier with a recorded quantity. -/
def finalStep (st : ExtState) : ExtState :=
  match st.curQty with
  | some q =>
    if st.curParts.isEmpty then st
    else { st with skus := st.skus ++ [(joinSpace st.curParts, q)] }
  | none => st

/-- Base and plus-separated parts of a composite whitelist entry. -/
def compositeParts (cand : String) : Option (String × List String) :=
  if containsStr cand "(" ∧ endsWithStr cand ")" then
    let base := String.mk (cand.data.takeWhile (· != '('))
    let rest := ((cand.data.dropWhile (· != '(')).drop 1).dropLast
    some (base, ((splitOnPred (· == '+') rest).filter (fun g => !g.isEmpty)).map String.mk)
  else none

/-- One whitelist candidate of the backfill pass: skip candidates already
extracted; add a candidate found verbatim in the region text with quantity 1;
for a composite candidate whose base and parts all occur in the region text,
drop heuristic records sharing the base prefix and add the candidate with
quantity 1. -/
def backfillStep (regionText : String) (existing : List String)
    (acc : List (String × ℤ)) (cand : String) : List (String × ℤ) :=
  if cand ∈ existing then acc
  else if containsStr regionText cand then acc ++ [(cand, 1)]
  else
    match compositeParts cand with
    | some bp =>
      if ¬bp.1.data.isEmpty ∧ containsStr regionText bp.1 ∧
          bp.2.all (fun p => containsStr regionText p) then
        (acc.filter fun r => !(startsWithStr r.1 bp.1 && r.1 != cand)) ++ [(cand, 1)]
      else acc
    | none => acc

/-- Whitelist backfill pass over the region between the header line and the
"Qty Total" line. -/
def backfill (wl : List String) (lines : List String) (st : ExtState) :
    List (String × ℤ) :=
  match st.headerIdx with
  | none => st.skus
  | some h =>
    if wl.isEmpty then st.skus
    else
      let endIdx := st.qtyTotalIdx.getD lines.length
      let region := (lines.drop (h + 1)).take (endIdx - (h + 1))
      let regionText :=
        joinSpace (region.filterMap fun l => if pyStrip l = "" then none else some (pyStrip l))
      let existing := st.skus.map Prod.fst
      wl.foldl (backfillStep regionText existing) st.skus

/-- Update the first occurrence of `key` in an association list, adding `q`
(the dictionary update of the deduplication pass). -/
def bumpKey (key : String) (q : ℤ) : List (String × ℤ) → List (String × ℤ)
  | [] => []
  | r :: rest => if r.1 = key then (r.1, r.2 + q) :: rest else r :: bumpKey key q rest

/-- Insertion-ordered deduplication by whitespace-normalised identifier,
summing quantities. -/
def dedupeAux : List (String × ℤ) → List (String × ℤ) → List (String × ℤ)
  | acc, [] => acc
  | acc, r :: rest =>
    let key := cleanName r.1
    if acc.any (fun p => p.1 == key) then dedupeAux (bumpKey key r.2 acc) rest
    else dedupeAux (acc ++ [(key, r.2)]) rest

/-- The final deduplication pass of `extract_sku_from_packing_slip`. -/
def dedupeSkus (l : List (String × ℤ)) : List (String × ℤ) := dedupeAux [] l

/-- The record list of `extract_sku_from_packing_slip` before deduplication:
line loop, end-of-text finalisation, then whitelist backfill. -/
def rawSkus (wl : List String) (text : String) : List (String × ℤ) :=
  let lines := splitLines text
  backfill wl lines (finalStep (extractLoop wl lines 0 {}))

/-- Model of `extract_sku_from_packing_slip(text)` with the whitelist passed
explicitly. -/
def extract_sku_from_packing_slip (wl : List String) (text : String) :
    List (String × ℤ) :=
  dedupeSkus (rawSkus wl text)


/-! ## Coordinate-based extractor (`extract_sku_from_page`) -/

/-- A word extracted from a page: text plus bounding box, as consumed from the
external document model. -/
structure Word where
  text : String
  x0 : ℚ
  x1 : ℚ
  top : ℚ
  bottom : ℚ
deriving DecidableEq

/-- A packing-slip page as the extractor sees it: its word list and its plain
text (the latter is what the text-based fallback parses). -/
structure PPage where
  words : List Word
  text : String
deriving DecidableEq

/-- First word whose stripped text case-insensitively equals "seller". -/
def sellerWord (ws : List Word) : Option Word :=
  ws.find? (fun w => lowerStr (pyStrip w.text) == "seller")

/-- One step of the quantity-anchor scan: keep the topmost "qty"-starting
word seen so far (the first wins ties). -/
def qtyHeaderStep (acc : Option Word) (w : Word) : Option Word :=
  if startsWithStr (lowerStr (pyStrip w.text)) "qty" then
    match acc with
    | none => some w
    | some q => if w.top < q.top then some w else some q
  else acc

/-- Topmost word whose stripped text case-insensitively starts with "qty"
(the first such word wins ties). -/
def qtyHeaderWord (ws : List Word) : Option Word :=
  ws.foldl qtyHeaderStep none

/-- Largest top coordinate of a word containing both "qty" and "total". -/
def qtyTotalTop (ws : List Word) : Option ℚ :=
  ws.foldl
    (fun acc w =>
      let t := lowerStr (pyStrip w.text)
      if containsStr t "qty" && containsStr t "total" then
        match acc with
        | none => some w.top
        | some m => if m < w.top then some w.top else some m
      else acc)
    none

/-- Maximum bottom coordinate over the page's words (0 for no words; only used
on nonempty word lists). -/
def maxBottomD : List Word → ℚ
  | [] => 0
  | w :: rest => rest.foldl (fun m x => max m x.bottom) w.bottom

/-- Stable insertion into a key-sorted word list: a new word goes after all
words with key less than or equal to its own. -/
def insertByKey (key : Word → ℚ) (x : Word) : List Word → List Word
  | [] => [x]
  | y :: ys => if key y ≤ key x then y :: insertByKey key x ys else x :: y :: ys

/-- Stable sort by a rational key (Python `list.sort` is stable). -/
def stableSortBy (key : Word → ℚ) (l : List Word) : List Word :=
  l.foldl (fun acc x => insertByKey key x acc) []

/-- One step of the row-clustering loop: start a new row when the word's top
is more than the tolerance of 2 points away from the current row's first top. -/
def clusterStep (st : List (List Word) × List Word × ℚ) (w : Word) :
    List (List Word) × List Word × ℚ :=
  if st.2.1 ≠ [] ∧ 2 < |w.top - st.2.2| then (st.1 ++ [st.2.1], [w], w.top)
  else if st.2.1.isEmpty then (st.1, [w], w.top)
  else (st.1, st.2.1 ++ [w], st.2.2)

/-- Cluster top-sorted words into rows by vertical proximity. -/
def clusterRows (ws : List Word) : List (List Word) :=
  let st := ws.foldl clusterStep ([], [], 0)
  if st.2.1.isEmpty then st.1 else st.1 ++ [st.2.1]

/-- Per-row extraction product: identifier-column tokens and numeric
quantity-column candidates. -/
structure RowInfo where
  sku_tokens : List String
  qty_candidates : List ℤ
deriving DecidableEq

/-- One word of the per-row extraction: skip empty and literal "qty" tokens,
collect an identifier token when the word's center lies in the identifier
column, and a digit-only quantity candidate when the center is at or right of
the quantity column. -/
def rowInfoStep (skuMin skuMax : ℚ) (ri : RowInfo) (w : Word) : RowInfo :=
  let txt := pyStrip w.text
  if txt = "" then ri
  else if lowerStr txt = "qty" then ri
  else
    let xc := (w.x0 + w.x1) / 2
    let ri1 :=
      if skuMin ≤ xc ∧ xc < skuMax then
        { ri with sku_tokens := ri.sku_tokens ++ [txt] }
      else ri
    if skuMax ≤ xc ∧ isDigitStr txt then
      { ri1 with qty_candidates := ri1.qty_candidates ++ [(digitsVal txt.data : ℤ)] }
    else ri1

/-- Build a `RowInfo` from one clustered row, walking it left-to-right (both
column bounds are the "Qty" anchor's left edge). -/
def buildRowInfo (skuMin skuMax : ℚ) (row : List Word) : RowInfo :=
  (stableSortBy (fun w => w.x0) row).foldl (rowInfoStep skuMin skuMax) ⟨[], []⟩

/-- Steps 2-4 of the coordinate extractor, given the located anchor words:
vertical range, clustering, per-row info, dropping rows without identifier
tokens. -/
def pageRowsInfo (p : PPage) (sw qw : Word) : List RowInfo :=
  let yMin := sw.top + 1
  let yMax :=
    match qtyTotalTop p.words with
    | some t => t - 1
    | none => maxBottomD p.words
  let cands :=
    p.words.filter (fun w =>
      decide (yMin ≤ (w.top + w.bottom) / 2 ∧ (w.top + w.bottom) / 2 ≤ yMax))
  let rows := clusterRows (stableSortBy (fun w => w.top) cands)
  rows.filterMap (fun r =>
    let ri := buildRowInfo sw.x0 qw.x0 r
    if ri.sku_tokens.isEmpty then none else some ri)

/-- Table-boundary phrases that stop the row-merging scan. -/
def boundaryPhrases : List String :=
  ["qty total", "order id", "package id", "buyer id", "product name"]

/-- A row starts a new identifier when its joined tokens contain "Ink-" or its
first token is a prefix of some whitelist entry. -/
def isStartRow (wl : List String) (ri : RowInfo) : Bool :=
  containsStr (joinSpace ri.sku_tokens) "Ink-" ||
    (!wl.isEmpty &&
      match ri.sku_tokens with
      | [] => false
      | t :: _ => wl.any (fun n => startsWithStr n t))

/-- Continuation absorption: token lists of the rows following a start row up
to (excluding) the next start row or boundary row, together with the number of
rows absorbed. -/
def absorb : List RowInfo → List String × ℕ
  | [] => ([], 0)
  | nxt :: rest =>
    let t := joinSpace nxt.sku_tokens
    if containsStr t "Ink-" then ([], 0)
    else if boundaryPhrases.any (fun ph => startsWithStr (lowerStr t) ph) then ([], 0)
    else
      let pr := absorb rest
      (nxt.sku_tokens ++ pr.1, pr.2 + 1)

/-- A merged multi-row group: all its identifier tokens and the quantity
candidates of its start row. -/
structure MRow where
  sku_tokens : List String
  qty_candidates : List ℤ
deriving DecidableEq

/-- Step 5 of the coordinate extractor with an explicit skip counter: a
positive counter skips a row already absorbed into the previous group (the
loop variable jumping past absorbed rows); at zero, a start row opens a group
taking its own quantity candidates and the absorbed rows' tokens, and any
other row is passed over. -/
def mergeRowsAux (wl : List String) : ℕ → List RowInfo → List MRow
  | _, [] => []
  | k + 1, _ :: rest => mergeRowsAux wl k rest
  | 0, cur :: rest =>
    if isStartRow wl cur then
      let ab := absorb rest
      ⟨cur.sku_tokens ++ ab.1, cur.qty_candidates⟩ :: mergeRowsAux wl ab.2 rest
    else mergeRowsAux wl 0 rest

/-- Step 5 of the coordinate extractor: merge each start row with its absorbed
continuation rows; note that only the start row's quantity candidates are
carried into the group. -/
def mergeRows (wl : List String) (l : List RowInfo) : List MRow :=
  mergeRowsAux wl 0 l

/-- One iteration of step 6 of the coordinate extractor: join the group's
tokens, normalise by the whitelist, keep the record only when the normalised
identifier contains "Ink-" or is a whitelist entry; quantity is the group's
last candidate or 1. -/
def buildResultStep (wl : List String) (acc : List (String × ℤ)) (g : MRow) :
    List (String × ℤ) :=
  if g.sku_tokens.isEmpty then acc
  else
    let n := normalize_sku_by_whitelist wl (joinSpace g.sku_tokens)
    if containsStr n "Ink-" ∨ n ∈ wl then acc ++ [(n, g.qty_candidates.getLastD 1)]
    else acc

/-- Step 6 of the coordinate extractor over all merged groups. -/
def buildResult (wl : List String) (groups : List MRow) : List (String × ℤ) :=
  groups.foldl (buildResultStep wl) []

/-- Model of `extract_sku_from_page(page)` with the whitelist passed
explicitly: anchor location with textual fallback, then the coordinate
pipeline, falling back to the text extractor when it yields nothing. -/
def extract_sku_from_page (wl : List String) (p : PPage) : List (String × ℤ) :=
  if p.words.isEmpty then []
  else
    match sellerWord p.words, qtyHeaderWord p.words with
    | some sw, some qw =>
      if qw.x0 ≤ sw.x0 then extract_sku_from_packing_slip wl p.text
      else
        let result := buildResult wl (mergeRows wl (pageRowsInfo p sw qw))
        if result.isEmpty then extract_sku_from_packing_slip wl p.text else result
    | some _, none => extract_sku_from_packing_slip wl p.text
    | none, _ => extract_sku_from_packing_slip wl p.text

/-! ## Table layout engine (`create_sku_table`) -/

/-- Configured grid row count. -/
def TABLE_ROWS : ℕ := 3

/-- Configured row height in points. -/
def TABLE_ROW_HEIGHT : ℚ := 16

/-- Configured fixed table top position (148, so the anchor search branch of
`find_shipping_label_position` is never taken). -/
def TABLE_Y_POSITION : Option ℚ := some 148

/-- Initial font size. -/
def baseFontSize : ℚ := 9

/-- Largest font size tried. -/
def maxFontSize : ℚ := 11

/-- Smallest font size tried. -/
def minFontSize : ℚ := 6

/-- The font sizes tried, from `maxFontSize` down to `minFontSize` in unit
steps. -/
def fontSizesDesc : List ℚ := [11, 10, 9, 8, 7, 6]

/-- Model of `find_shipping_label_position`: the configured constant when set;
otherwise the 55 percent default (the anchor text search needs the external
search primitive and is unreachable under the configured constant). -/
def findShippingLabelPosition (ph : ℚ) : ℚ :=
  match TABLE_Y_POSITION with
  | some y => y
  | none => ph * 11 / 20

/-- Left edge of the table: 10 percent margin. -/
def tableX (pw : ℚ) : ℚ := pw / 10

/-- Table width: page width minus two 10 percent margins. -/
def tableWidth (pw : ℚ) : ℚ := pw - pw / 10 - pw / 10

/-- Identifier column width: 40 percent of the table width. -/
def colWidthSku (pw : ℚ) : ℚ := tableWidth pw * 2 / 5

/-- Quantity column width: 10 percent of the table width. -/
def colWidthQty (pw : ℚ) : ℚ := tableWidth pw / 10

/-- Table top after the address-area collision guard: shift up when the table
would intrude into the bottom 15 percent of the page. -/
def tableY (ph : ℚ) : ℚ :=
  let t := findShippingLabelPosition ph
  let tableHeight := (TABLE_ROWS : ℚ) * TABLE_ROW_HEIGHT
  let addressArea := ph * 3 / 20
  if ph - addressArea < t + tableHeight then ph - addressArea - tableHeight - 10 else t

/-- Additive model of `fitz.get_text_length(s, fontname="helv", fontsize)`:
sum of per-character advance widths (per-mille of an em) scaled by the size. -/
def textLength (afm : Char → ℚ) (s : String) (size : ℚ) : ℚ :=
  (s.data.map afm).sum * size / 1000

/-- Strip the fixed "Ink-" display prefix. -/
def stripInk (name : String) : String :=
  if startsWithStr name "Ink-" then String.mk (name.data.drop 4) else name

/-- Predicate `_will_overflow_single_cell`: the stripped name, set at the
minimum font size, exceeds the identifier column width minus the padding 6. -/
def will_overflow_single_cell (afm : Char → ℚ) (pw : ℚ) (name : String) : Bool :=
  decide (colWidthSku pw - 6 < textLength afm (stripInk name) minFontSize)

/-- A display entry: name and quantity, the quantity being absent on the
overflow sentinel (Python uses the empty string there). -/
abbrev Entry := String × Option ℤ

/-- Cap at six records and append the overflow sentinel when more existed. -/
def display_skus (skus : List (String × ℤ)) : List Entry :=
  let d := (skus.take 6).map (fun r => (r.1, some r.2))
  if 6 < skus.length then d ++ [("Check More", none)] else d

/-- Row classification. -/
inductive RowType
  | normal
  | merged
deriving DecidableEq

/-- The long-identifier test used by the layout loop. -/
def isLongOf (afm : Char → ℚ) (pw : ℚ) : Entry → Bool :=
  fun e => will_overflow_single_cell afm pw e.1

/-- The row-building loop of `create_sku_table`: merged rows take one long
entry, normal rows take up to two consecutive short entries, stopping when the
configured number of rows is filled. -/
def buildLayout (isLong : Entry → Bool) : List Entry → ℕ → List (List Entry × RowType)
  | [], _ => []
  | _ :: _, 0 => []
  | e :: rest, n + 1 =>
    if isLong e then ([e], RowType.merged) :: buildLayout isLong rest n
    else
      match rest with
      | [] => ([e], RowType.normal) :: buildLayout isLong [] n
      | e2 :: rest2 =>
        if isLong e2 then ([e], RowType.normal) :: buildLayout isLong (e2 :: rest2) n
        else ([e, e2], RowType.normal) :: buildLayout isLong rest2 n

/-- Row types padded with `normal` up to the configured row count (used for
grid-line drawing). -/
def fullRowTypes (L : List (List Entry × RowType)) : List RowType :=
  (List.range TABLE_ROWS).map (fun i => (L.getD i ([], RowType.normal)).2)

/-- Which of the three interior vertical separators are drawn, per row index:
the first two are skipped on merged rows, the third is always drawn. -/
def drawnVerts (L : List (List Entry × RowType)) : List (ℕ × ℕ) :=
  ((List.range TABLE_ROWS).map fun r =>
    let m := (fullRowTypes L).getD r RowType.normal == RowType.merged
    (if m then [] else [(r, 1)]) ++ (if m then [] else [(r, 2)]) ++ [(r, 3)]).flatten

/-- Font-size fitting: first size from the maximum down that fits, otherwise
the base size is kept (note: not the minimum size). -/
def fitFontSize (afm : Char → ℚ) (avail : ℚ) (s : String) : ℚ :=
  match fontSizesDesc.find? (fun t => decide (textLength afm s t ≤ avail)) with
  | some t => t
  | none => baseFontSize

/-- Greedy count of leading characters whose summed widths at the minimum size
stay within the available width. -/
def maxFitChars (afm : Char → ℚ) (avail : ℚ) : List Char → ℚ → ℕ
  | [], _ => 0
  | c :: rest, w =>
    let cw := textLength afm (String.mk [c]) minFontSize
    if w + cw ≤ avail then 1 + maxFitChars afm avail rest (w + cw) else 0

/-- The truncation step: keep the fitting prefix minus three characters plus an
ellipsis (or the literal fitting prefix when it is at most 3 characters). -/
def truncateName (afm : Char → ℚ) (avail : ℚ) (s : String) : String :=
  let mc := maxFitChars afm avail s.data 0
  if mc < s.data.length then
    if 3 < mc then String.mk (s.data.take (mc - 3)) ++ "..." else String.mk (s.data.take mc)
  else s

/-- Fitted display string and font size for one cell: truncation is attempted
only when the fitting loop settled exactly on the minimum size. -/
def fittedName (afm : Char → ℚ) (avail : ℚ) (s : String) : String × ℚ :=
  let sz := fitFontSize afm avail s
  (if sz = minFontSize then truncateName afm avail s else s, sz)

/-- A positioned text run emitted on the page. -/
structure TextRun where
  x : ℚ
  y : ℚ
  text : String
  size : ℚ
deriving DecidableEq

/-- Python truthiness of the quantity slot (`if qty:`): absent or zero is
falsy. -/
def qtyTruthy : Option ℤ → Bool
  | none => false
  | some q => q != 0

/-- Python `str(qty)`. -/
def qtyText : Option ℤ → String
  | none => ""
  | some q => toString q

/-- Vertical centering offset within a row. -/
def textYOffset : ℚ := TABLE_ROW_HEIGHT / 2 + baseFontSize / 3

/-- Baseline y position for a row index. -/
def rowYPos (ph : ℚ) (rowIdx : ℕ) : ℚ :=
  tableY ph + (rowIdx : ℚ) * TABLE_ROW_HEIGHT + textYOffset

/-- Text runs of a merged row: the name over the first three cells (available
width is both identifier columns plus one quantity column minus padding), the
quantity in the rightmost column at the base size. -/
def renderMerged (afm : Char → ℚ) (pw ph : ℚ) (rowIdx : ℕ) (e : Entry) : List TextRun :=
  let y := rowYPos ph rowIdx
  (if e.1 = "" then []
   else
     let disp := stripInk e.1
     let avail := colWidthSku pw * 2 + colWidthQty pw - 6
     let fr := fittedName afm avail disp
     [⟨tableX pw + 3, y, fr.1, fr.2⟩]) ++
  (if qtyTruthy e.2 then
     [⟨tableX pw + colWidthSku pw + colWidthQty pw + colWidthSku pw, y, qtyText e.2,
       baseFontSize⟩]
   else [])

/-- Text runs of a normal row: up to two name-and-quantity cell pairs. -/
def renderNormal (afm : Char → ℚ) (pw ph : ℚ) (rowIdx : ℕ) (row : List Entry) : List TextRun :=
  let y := rowYPos ph rowIdx
  (row.enum.map fun ce =>
    let xPos := tableX pw + 3 + (ce.1 : ℚ) * (colWidthSku pw + colWidthQty pw)
    (if ce.2.1 = "" then []
     else
       let disp := stripInk ce.2.1
       let avail := colWidthSku pw - 6
       let fr := fittedName afm avail disp
       [⟨xPos, y, fr.1, fr.2⟩]) ++
    (if qtyTruthy ce.2.2 then
       [⟨xPos + colWidthSku pw, y, qtyText ce.2.2, baseFontSize⟩]
     else [])).flatten

/-- All text runs drawn by the row-drawing loop of `create_sku_table`. -/
def renderTexts (afm : Char → ℚ) (pw ph : ℚ) (entries : List Entry) : List TextRun :=
  ((buildLayout (isLongOf afm pw) entries TABLE_ROWS).enum.map fun rt =>
    match rt.2.2 with
    | RowType.merged =>
      match rt.2.1 with
      | e :: _ => renderMerged afm pw ph rt.1 e
      | [] => []
    | RowType.normal => renderNormal afm pw ph rt.1 rt.2.1).flatten

/-- Text runs of `create_sku_table` for a record list: capping and sentinel,
then layout and drawing. -/
def create_sku_table_texts (afm : Char → ℚ) (pw ph : ℚ) (skus : List (String × ℤ)) :
    List TextRun :=
  renderTexts afm pw ph (display_skus skus)

/-- Entries actually placed in the grid, in placement order. -/
def layoutFlatten (L : List (List Entry × RowType)) : List Entry :=
  (L.map Prod.fst).flatten

/-! ## Concrete inputs used by witnesses and counterexamples -/

/-- Constant advance-width table: every glyph one em (1000 per-mille). -/
def afmConst : Char → ℚ := fun _ => 1000

/-- A 120-character identifier. -/
def wName120 : String := String.mk (List.replicate 120 'W')

/-- A 60-character identifier. -/
def wName60 : String := String.mk (List.replicate 60 'W')

/-- Eight identical long records. -/
def skus8 : List (String × ℤ) := List.replicate 8 (wName60, 1)

/-- A page with no words whose plain text still parses to one record. -/
def c5page : PPage := ⟨[], String.mk ("SKU QTY".data ++ '\n' :: "Ink-A 5".data)⟩

/-- A packing-slip text whose quantity token is a negative integer. -/
def negText : String := String.mk ("SKU QTY".data ++ '\n' :: "Ink-A -5".data)

/-- A packing-slip text with the same identifier on two rows. -/
def dupText : String :=
  String.mk
    ("SKU QTY".data ++ '\n' :: "Ink-A 5".data ++ '\n' :: "sticker".data ++
      '\n' :: "Ink-A 7".data)

/-- Whitelist for the tier-interaction counterexample. -/
def wl3 : List String := ["ABC", "X(y1+z2)"]

/-- Raw identifier matching "ABC" by containment and the composite entry by
the complex rule. -/
def raw3 : String := "ABC x y1 z2"

/-- Header anchor word of the two-row page. -/
def w8Seller : Word := ⟨"Seller", 0, 30, 0, 10⟩

/-- Quantity anchor word of the two-row page. -/
def w8Qty : Word := ⟨"Qty", 100, 115, 0, 10⟩

/-- Start-row identifier word. -/
def w8Ink : Word := ⟨"Ink-A", 10, 40, 20, 30⟩

/-- Continuation-row identifier word. -/
def w8B2 : Word := ⟨"B2", 10, 40, 40, 50⟩

/-- Quantity digit word on the continuation row. -/
def w8Seven : Word := ⟨"7", 110, 116, 40, 50⟩

/-- A page whose identifier wraps onto a second row carrying the quantity. -/
def c8page : PPage := ⟨[w8Seller, w8Qty, w8Ink, w8B2, w8Seven], ""⟩


/-- Eight distinct short records for the display-cap witness. -/
def skusC2 : List (String × ℤ) :=
  [("a", 1), ("b", 2), ("c", 3), ("d", 4), ("e", 5), ("f", 6), ("g", 7), ("h", 8)]

/-- Singleton whitelist for the resolution witnesses. -/
def wlW : List String := ["ABC"]

/-- Raw identifier containing the single whitelist entry. -/
def rawW : String := "zABCz"

/-- A page with words but no "seller" anchor, for the fallback witness. -/
def c5wpage : PPage := ⟨[⟨"Qty", 100, 115, 0, 10⟩], c5page.text⟩

/-- Single long display entry for the merged-row witness. -/
def entriesC6 : List Entry := [(wName60, some 2)]

/-- Does no whitespace token of the text parse as a negative integer?  (The
hypothesis under which extracted quantities are nonnegative.) -/
def noNegIntTokens (text : String) : Bool :=
  (splitLines text).all fun line =>
    (pySplit (pyStrip line)).all fun tok =>
      match pyInt tok with
      | some z => decide (0 ≤ z)
      | none => true

/-! ## Claim theorems -/

/-- Claim C2: with more than six records the layout engine displays exactly
the first six records followed by the single overflow sentinel: the displayed
list has seven entries, its seventh entry is the literal sentinel, and the
first six are the first six input records — never eight. -/
theorem C2_display_cap (skus : List (String × ℤ)) (h : 6 < skus.length) :
    display_skus skus =
      (skus.take 6).map (fun r => (r.1, some r.2)) ++ [("Check More", (none : Option ℤ))] ∧
    (display_skus skus).length = 7 ∧
    (display_skus skus)[6]? = some ("Check More", none) ∧
    (∀ i : ℕ, i < 6 →
      (display_skus skus)[i]? = (skus[i]?).map (fun r => (r.1, some r.2))) := by
  have hd : display_skus skus =
      (skus.take 6).map (fun r => (r.1, some r.2)) ++ [("Check More", (none : Option ℤ))] := by
    simp [display_skus, h]
  have hlen6 : ((skus.take 6).map (fun r => (r.1, some r.2))).length = 6 := by
    simp [List.length_take]; omega
  refine ⟨hd, ?_, ?_, ?_⟩
  · rw [hd, List.length_append, hlen6]
    rfl
  · rw [hd, List.getElem?_append_right (by rw [hlen6]), hlen6]
    rfl
  · intro i hi
    rw [hd, List.getElem?_append_left (by rw [hlen6]; exact hi), List.getElem?_map,
      List.getElem?_take_of_lt hi]

/-- Witness for C2 at eight concrete records. -/
theorem C2_display_cap_witness :
    6 < skusC2.length ∧
    display_skus skusC2 =
      [("a", some 1), ("b", some 2), ("c", some 3), ("d", some 4), ("e", some 5),
       ("f", some 6), ("Check More", none)] := by
  refine ⟨by decide, ?_⟩
  rw [(C2_display_cap skusC2 (by decide)).1]
  decide

/-- Claim C3 counterexample: for this whitelist and raw identifier the
substring tier yields exactly one candidate ("ABC"), yet normalisation does
not return it — the composite tier still contributes a second candidate and
the raw string is returned. -/
theorem C3_counterexample :
    tier2Candidates wl3 raw3 = ["ABC"] ∧ raw3 ∉ wl3 ∧
    normalize_sku_by_whitelist wl3 raw3 = raw3 ∧ raw3 ≠ "ABC" := by decide

/-- Claim C3 (amended): tiers 2 and 3 pool their candidates; a unique tier-2
candidate is returned only when tier 3 adds no further candidate (the pool
equals the tier-2 list). -/
theorem C3_tier_pooling (wl : List String) (raw c : String) (h1 : raw ∉ wl)
    (h2 : tier2Candidates wl raw = [c])
    (h3 : poolCandidates wl raw = tier2Candidates wl raw) :
    normalize_sku_by_whitelist wl raw = c := by
  have hne : wl ≠ [] := by
    intro he
    rw [he] at h2
    simp [tier2Candidates] at h2
  have hempty : wl.isEmpty = false := by simpa [List.isEmpty_iff] using hne
  simp [normalize_sku_by_whitelist, hempty, h1, h3, h2]

/-- Witness for the amended C3. -/
theorem C3_tier_pooling_witness : normalize_sku_by_whitelist wlW rawW = "ABC" :=
  C3_tier_pooling wlW rawW "ABC" (by decide) (by decide) (by decide)

/-- Claim C4: for a raw identifier not in the whitelist, normalisation returns
the single surviving tier 2-3 candidate when there is exactly one, and returns
the raw string unchanged when zero or several survive; no error is produced
(the function is total). -/
theorem C4_resolution (wl : List String) (raw : String) (h : raw ∉ wl) :
    (∀ c, poolCandidates wl raw = [c] → normalize_sku_by_whitelist wl raw = c) ∧
    ((poolCandidates wl raw).length ≠ 1 → normalize_sku_by_whitelist wl raw = raw) := by
  by_cases he : wl = []
  · subst he
    refine ⟨fun c hc => ?_, fun _ => by simp [normalize_sku_by_whitelist]⟩
    simp [poolCandidates, tier3Pool, tier2Candidates] at hc
  · have hempty : wl.isEmpty = false := by simpa [List.isEmpty_iff] using he
    constructor
    · intro c hc
      simp [normalize_sku_by_whitelist, hempty, h, hc]
    · intro hlen
      cases hp : poolCandidates wl raw with
      | nil => simp [normalize_sku_by_whitelist, hempty, h, hp]
      | cons c t =>
        cases t with
        | nil => exact absurd (by rw [hp]; rfl) hlen
        | cons d t2 => simp [normalize_sku_by_whitelist, hempty, h, hp]

/-- Witness for C4: a unique candidate is returned, an ambiguous pool keeps
the raw string. -/
theorem C4_resolution_witness :
    normalize_sku_by_whitelist wlW rawW = "ABC" ∧
    normalize_sku_by_whitelist wl3 raw3 = raw3 := by
  constructor
  · exact (C4_resolution wlW rawW (by decide)).1 "ABC" (by decide)
  · exact (C4_resolution wl3 raw3 (by decide)).2 (by decide)

/-- Claim C1: at this input the identifier is too wide for its (merged) cell
even at the minimum font size, yet the engine draws the whole untruncated name
at the base font size: the fitting loop leaves `optimal_font_size` at the base
when no size fits, so the equality test against the minimum size that guards
truncation never fires, and the drawn run overflows the available width. -/
theorem C1_overflow_drawn_untruncated :
    will_overflow_single_cell afmConst 1000 wName120 = true ∧
    colWidthSku 1000 * 2 + colWidthQty 1000 - 6 < textLength afmConst wName120 minFontSize ∧
    create_sku_table_texts afmConst 1000 1000 [(wName120, 1)] =
      [⟨tableX 1000 + 3, rowYPos 1000 0, wName120, baseFontSize⟩,
       ⟨tableX 1000 + colWidthSku 1000 + colWidthQty 1000 + colWidthSku 1000, rowYPos 1000 0,
        "1", baseFontSize⟩] ∧
    colWidthSku 1000 * 2 + colWidthQty 1000 - 6 < textLength afmConst wName120 baseFontSize := by
  decide

/-- Claim C5 counterexample: a page with an empty word list — hence no word
equal to "seller" — returns the empty list without delegating, while the
text-based extractor on the page's plain text returns one record. -/
theorem C5_counterexample :
    (∀ w ∈ c5page.words, lowerStr (pyStrip w.text) ≠ "seller") ∧
    extract_sku_from_page [] c5page = [] ∧
    extract_sku_from_packing_slip [] c5page.text = [("Ink-A", 5)] := by
  refine ⟨?_, by decide, by decide⟩
  intro w hw
  simp [c5page] at hw

/-- Claim C8 counterexample: the quantity digit 7 sits on the absorbed
continuation row of the merged group, so the group's candidate list is empty
and the emitted quantity is the default 1, not the last numeric candidate
observed in the group. -/
theorem C8_counterexample :
    extract_sku_from_page [] c8page = [("Ink-A B2", 1)] ∧
    pageRowsInfo c8page w8Seller w8Qty =
      [⟨["Seller"], []⟩, ⟨["Ink-A"], []⟩, ⟨["B2"], [7]⟩] ∧
    mergeRows [] (pageRowsInfo c8page w8Seller w8Qty) = [⟨["Ink-A", "B2"], []⟩] ∧
    sellerWord c8page.words = some w8Seller ∧
    qtyHeaderWord c8page.words = some w8Qty ∧
    (1 : ℤ) ≠ 7 := by decide

/-- Claim C9 counterexample: a line whose first integer token is negative
yields a record with a negative quantity. -/
theorem C9_counterexample :
    extract_sku_from_packing_slip [] negText = [("Ink-A", -5)] ∧ (-5 : ℤ) < 0 := by decide

/-- Helper: the quantity-anchor scan yields nothing when no word's stripped
lowercased text starts with "qty". -/
theorem qtyHeaderWord_eq_none (ws : List Word)
    (h : ∀ w ∈ ws, startsWithStr (lowerStr (pyStrip w.text)) "qty" = false) :
    qtyHeaderWord ws = none := by
  unfold qtyHeaderWord
  induction ws with
  | nil => rfl
  | cons a t ih =>
    rw [List.foldl_cons]
    have ha : qtyHeaderStep none a = none := by
      simp [qtyHeaderStep, h a (List.mem_cons_self a t)]
    rw [ha]
    exact ih (fun w hw => h w (List.mem_cons_of_mem a hw))

/-- Claim C5 (amended): with a nonempty word list, whenever no word equals
"seller" case-insensitively, or no word starts with "qty", or the selected
quantity anchor's left edge is not strictly right of the identifier anchor's
left edge, the coordinate extractor returns exactly the text extractor's
records on the page's plain text. -/
theorem C5_fallback_equiv (wl : List String) (p : PPage) (hw : p.words ≠ [])
    (h : (∀ w ∈ p.words, lowerStr (pyStrip w.text) ≠ "seller") ∨
         (∀ w ∈ p.words, startsWithStr (lowerStr (pyStrip w.text)) "qty" = false) ∨
         (∃ s q, sellerWord p.words = some s ∧ qtyHeaderWord p.words = some q ∧
           q.x0 ≤ s.x0)) :
    extract_sku_from_page wl p = extract_sku_from_packing_slip wl p.text := by
  have hwe : p.words.isEmpty = false := by
    cases hws : p.words with
    | nil => exact absurd hws hw
    | cons a t => rfl
  rcases h with h | h | ⟨s, q, hs, hq, hle⟩
  · have hnone : sellerWord p.words = none := by
      apply List.find?_eq_none.mpr
      intro w hwmem
      simp [h w hwmem]
    simp only [extract_sku_from_page, hwe, Bool.false_eq_true, if_false, hnone]
  · have hnone : qtyHeaderWord p.words = none := qtyHeaderWord_eq_none p.words h
    cases hsel : sellerWord p.words with
    | none => simp only [extract_sku_from_page, hwe, Bool.false_eq_true, if_false, hsel, hnone]
    | some sw => simp only [extract_sku_from_page, hwe, Bool.false_eq_true, if_false, hsel, hnone]
  · simp only [extract_sku_from_page, hwe, Bool.false_eq_true, if_false, hs, hq]
    rw [if_pos hle]

/-- Witness for the amended C5: a page with one word, none equal to "seller". -/
theorem C5_fallback_equiv_witness :
    c5wpage.words ≠ [] ∧
    extract_sku_from_page [] c5wpage = extract_sku_from_packing_slip [] c5wpage.text := by
  refine ⟨by decide, C5_fallback_equiv [] c5wpage (by decide) (Or.inl (by decide))⟩

/-- Helper: empty entry list, empty layout. -/
theorem buildLayout_nil (isLong : Entry → Bool) (n : ℕ) : buildLayout isLong [] n = [] := by
  cases n <;> rfl

/-- Helper: zero rows, empty layout. -/
theorem buildLayout_zero (isLong : Entry → Bool) (es : List Entry) :
    buildLayout isLong es 0 = [] := by
  cases es <;> rfl

/-- Helper: a long entry takes a merged row alone. -/
theorem buildLayout_long (isLong : Entry → Bool) (e : Entry) (rest : List Entry) (n : ℕ)
    (hl : isLong e = true) :
    buildLayout isLong (e :: rest) (n + 1) =
      ([e], RowType.merged) :: buildLayout isLong rest n := by
  rw [buildLayout.eq_def]
  simp only [hl, if_true]

/-- Helper: a final short entry takes a normal row alone. -/
theorem buildLayout_short_nil (isLong : Entry → Bool) (e : Entry) (n : ℕ)
    (hl : isLong e = false) :
    buildLayout isLong [e] (n + 1) = [([e], RowType.normal)] := by
  rw [buildLayout.eq_def]
  simp only [hl, Bool.false_eq_true, if_false]
  rw [buildLayout_nil]

/-- Helper: a short entry followed by a long one takes a normal row alone. -/
theorem buildLayout_short_long (isLong : Entry → Bool) (e e2 : Entry) (rest2 : List Entry)
    (n : ℕ) (hl : isLong e = false) (hl2 : isLong e2 = true) :
    buildLayout isLong (e :: e2 :: rest2) (n + 1) =
      ([e], RowType.normal) :: buildLayout isLong (e2 :: rest2) n := by
  rw [buildLayout.eq_def]
  simp only [hl, hl2, Bool.false_eq_true, if_false, if_true]

/-- Helper: two consecutive short entries share a normal row. -/
theorem buildLayout_short_short (isLong : Entry → Bool) (e e2 : Entry) (rest2 : List Entry)
    (n : ℕ) (hl : isLong e = false) (hl2 : isLong e2 = false) :
    buildLayout isLong (e :: e2 :: rest2) (n + 1) =
      ([e, e2], RowType.normal) :: buildLayout isLong rest2 n := by
  rw [buildLayout.eq_def]
  simp only [hl, hl2, Bool.false_eq_true, if_false]

/-- Helper: the layout loop fills at most the configured number of rows. -/
theorem buildLayout_length_le (isLong : Entry → Bool) :
    ∀ (n : ℕ) (es : List Entry), (buildLayout isLong es n).length ≤ n := by
  intro n
  induction n with
  | zero => intro es; rw [buildLayout_zero]; exact Nat.le_refl 0
  | succ n ih =>
    intro es
    cases es with
    | nil => rw [buildLayout_nil]; exact Nat.zero_le _
    | cons e rest =>
      cases hl : isLong e with
      | true =>
        rw [buildLayout_long _ _ _ _ hl, List.length_cons]
        exact Nat.succ_le_succ (ih rest)
      | false =>
        cases rest with
        | nil =>
          rw [buildLayout_short_nil _ _ _ hl]
          exact Nat.succ_le_succ (Nat.zero_le n)
        | cons e2 rest2 =>
          cases hl2 : isLong e2 with
          | true =>
            rw [buildLayout_short_long _ _ _ _ _ hl hl2, List.length_cons]
            exact Nat.succ_le_succ (ih _)
          | false =>
            rw [buildLayout_short_short _ _ _ _ _ hl hl2, List.length_cons]
            exact Nat.succ_le_succ (ih _)

/-- Helper: flattening an empty layout. -/
theorem layoutFlatten_nil : layoutFlatten [] = [] := rfl

/-- Helper: flattening a layout one row at a time. -/
theorem layoutFlatten_cons (x : List Entry × RowType) (L : List (List Entry × RowType)) :
    layoutFlatten (x :: L) = x.1 ++ layoutFlatten L := by
  simp [layoutFlatten]

/-- Helper: a nonempty entry list at positive fuel places its head first. -/
theorem layoutFlatten_cons_entry (isLong : Entry → Bool) (e : Entry) (es : List Entry)
    (n : ℕ) : ∃ t, layoutFlatten (buildLayout isLong (e :: es) (n + 1)) = e :: t := by
  cases hl : isLong e with
  | true =>
    rw [buildLayout_long _ _ _ _ hl, layoutFlatten_cons]
    exact ⟨_, rfl⟩
  | false =>
    cases es with
    | nil => exact ⟨[], by rw [buildLayout_short_nil _ _ _ hl]; rfl⟩
    | cons e2 rest2 =>
      cases hl2 : isLong e2 with
      | true =>
        rw [buildLayout_short_long _ _ _ _ _ hl hl2, layoutFlatten_cons]
        exact ⟨_, rfl⟩
      | false =>
        rw [buildLayout_short_short _ _ _ _ _ hl hl2, layoutFlatten_cons]
        exact ⟨_, rfl⟩

/-- Helper: the entries placed by the layout loop are an initial segment of the
display list. -/
theorem layoutFlatten_take (isLong : Entry → Bool) :
    ∀ (n : ℕ) (es : List Entry),
      layoutFlatten (buildLayout isLong es n) =
        es.take (layoutFlatten (buildLayout isLong es n)).length := by
  intro n
  induction n with
  | zero => intro es; rw [buildLayout_zero]; rfl
  | succ n ih =>
    intro es
    cases es with
    | nil => rw [buildLayout_nil]; rfl
    | cons e rest =>
      cases hl : isLong e with
      | true =>
        rw [buildLayout_long _ _ _ _ hl, layoutFlatten_cons]
        simp only [List.singleton_append, List.length_cons, List.take_succ_cons]
        conv_lhs => rw [ih rest]
      | false =>
        cases rest with
        | nil => rw [buildLayout_short_nil _ _ _ hl]; rfl
        | cons e2 rest2 =>
          cases hl2 : isLong e2 with
          | true =>
            rw [buildLayout_short_long _ _ _ _ _ hl hl2, layoutFlatten_cons]
            simp only [List.singleton_append, List.length_cons, List.take_succ_cons]
            conv_lhs => rw [ih (e2 :: rest2)]
          | false =>
            rw [buildLayout_short_short _ _ _ _ _ hl hl2, layoutFlatten_cons]
            simp only [List.cons_append, List.singleton_append, List.nil_append,
              List.length_cons, List.take_succ_cons]
            conv_lhs => rw [ih rest2]

/-- Helper: rebuilding the layout from exactly the placed prefix of the display
list reproduces the layout. -/
theorem buildLayout_take (isLong : Entry → Bool) :
    ∀ (n : ℕ) (es : List Entry),
      buildLayout isLong (es.take (layoutFlatten (buildLayout isLong es n)).length) n =
        buildLayout isLong es n := by
  intro n
  induction n with
  | zero =>
    intro es
    rw [buildLayout_zero, buildLayout_zero]
  | succ n ih =>
    intro es
    cases es with
    | nil => simp only [buildLayout_nil, layoutFlatten_nil, List.length_nil, List.take_nil]
    | cons e rest =>
      cases hl : isLong e with
      | true =>
        rw [buildLayout_long _ _ _ _ hl, layoutFlatten_cons]
        simp only [List.singleton_append, List.length_cons, List.take_succ_cons]
        rw [buildLayout_long _ _ _ _ hl, ih rest]
      | false =>
        cases rest with
        | nil =>
          rw [buildLayout_short_nil _ _ _ hl]
          show buildLayout isLong [e] (n + 1) = _
          exact buildLayout_short_nil _ _ _ hl
        | cons e2 rest2 =>
          cases hl2 : isLong e2 with
          | true =>
            rw [buildLayout_short_long _ _ _ _ _ hl hl2, layoutFlatten_cons]
            simp only [List.singleton_append, List.length_cons, List.take_succ_cons]
            cases n with
            | zero =>
              rw [buildLayout_zero]
              show buildLayout isLong [e] 1 = ([e], RowType.normal) :: buildLayout isLong (e2 :: rest2) 0
              rw [buildLayout_zero, buildLayout_short_nil _ _ _ hl]
            | succ m =>
              obtain ⟨t, ht⟩ := layoutFlatten_cons_entry isLong e2 rest2 m
              have h2 := ih (e2 :: rest2)
              rw [ht] at h2 ⊢
              simp only [List.length_cons, List.take_succ_cons] at h2 ⊢
              rw [buildLayout_short_long _ _ _ _ _ hl hl2, h2]
          | false =>
            rw [buildLayout_short_short _ _ _ _ _ hl hl2, layoutFlatten_cons]
            simp only [List.cons_append, List.singleton_append, List.nil_append,
              List.length_cons, List.take_succ_cons]
            rw [buildLayout_short_short _ _ _ _ _ hl hl2, ih rest2]

/-- Helper: every merged layout row is a single long entry. -/
theorem buildLayout_merged_shape (isLong : Entry → Bool) :
    ∀ (n : ℕ) (es : List Entry), ∀ rt ∈ buildLayout isLong es n,
      rt.2 = RowType.merged → ∃ e, rt.1 = [e] ∧ isLong e = true := by
  intro n
  induction n with
  | zero =>
    intro es rt hrt
    rw [buildLayout_zero] at hrt
    exact absurd hrt (List.not_mem_nil rt)
  | succ n ih =>
    intro es rt hrt hm
    cases es with
    | nil =>
      rw [buildLayout_nil] at hrt
      exact absurd hrt (List.not_mem_nil rt)
    | cons e rest =>
      cases hl : isLong e with
      | true =>
        rw [buildLayout_long _ _ _ _ hl] at hrt
        rcases List.mem_cons.mp hrt with h1 | h2
        · exact ⟨e, by rw [h1], hl⟩
        · exact ih rest rt h2 hm
      | false =>
        cases rest with
        | nil =>
          rw [buildLayout_short_nil _ _ _ hl] at hrt
          rcases List.mem_cons.mp hrt with h1 | h2
          · rw [h1] at hm; exact RowType.noConfusion hm
          · exact absurd h2 (List.not_mem_nil rt)
        | cons e2 rest2 =>
          cases hl2 : isLong e2 with
          | true =>
            rw [buildLayout_short_long _ _ _ _ _ hl hl2] at hrt
            rcases List.mem_cons.mp hrt with h1 | h2
            · rw [h1] at hm; exact RowType.noConfusion hm
            · exact ih _ rt h2 hm
          | false =>
            rw [buildLayout_short_short _ _ _ _ _ hl hl2] at hrt
            rcases List.mem_cons.mp hrt with h1 | h2
            · rw [h1] at hm; exact RowType.noConfusion hm
            · exact ih _ rt h2 hm

/-- Helper: every normal layout row holds one or two entries, none long. -/
theorem buildLayout_normal_shape (isLong : Entry → Bool) :
    ∀ (n : ℕ) (es : List Entry), ∀ rt ∈ buildLayout isLong es n,
      rt.2 = RowType.normal →
        rt.1 ≠ [] ∧ rt.1.length ≤ 2 ∧ ∀ e ∈ rt.1, isLong e = false := by
  intro n
  induction n with
  | zero =>
    intro es rt hrt
    rw [buildLayout_zero] at hrt
    exact absurd hrt (List.not_mem_nil rt)
  | succ n ih =>
    intro es rt hrt hm
    cases es with
    | nil =>
      rw [buildLayout_nil] at hrt
      exact absurd hrt (List.not_mem_nil rt)
    | cons e rest =>
      cases hl : isLong e with
      | true =>
        rw [buildLayout_long _ _ _ _ hl] at hrt
        rcases List.mem_cons.mp hrt with h1 | h2
        · rw [h1] at hm; exact RowType.noConfusion hm
        · exact ih rest rt h2 hm
      | false =>
        cases rest with
        | nil =>
          rw [buildLayout_short_nil _ _ _ hl] at hrt
          rcases List.mem_cons.mp hrt with h1 | h2
          · refine ⟨by rw [h1]; simp, by rw [h1]; simp, ?_⟩
            intro e' he'
            rw [h1] at he'
            rcases List.mem_singleton.mp he' with rfl
            exact hl
          · exact absurd h2 (List.not_mem_nil rt)
        | cons e2 rest2 =>
          cases hl2 : isLong e2 with
          | true =>
            rw [buildLayout_short_long _ _ _ _ _ hl hl2] at hrt
            rcases List.mem_cons.mp hrt with h1 | h2
            · refine ⟨by rw [h1]; simp, by rw [h1]; simp, ?_⟩
              intro e' he'
              rw [h1] at he'
              rcases List.mem_singleton.mp he' with rfl
              exact hl
            · exact ih _ rt h2 hm
          | false =>
            rw [buildLayout_short_short _ _ _ _ _ hl hl2] at hrt
            rcases List.mem_cons.mp hrt with h1 | h2
            · refine ⟨by rw [h1]; simp, by rw [h1]; simp, ?_⟩
              intro e' he'
              rw [h1] at he'
              rcases List.mem_cons.mp he' with rfl | he2
              · exact hl
              · rcases List.mem_singleton.mp he2 with rfl
                exact hl2
            · exact ih _ rt h2 hm

/-- Helper: interior vertical separators are drawn exactly on non-merged rows
and the final separator is always drawn. -/
theorem drawnVerts_spec (L : List (List Entry × RowType)) (r : ℕ) (hr : r < TABLE_ROWS) :
    (((r, 1) ∈ drawnVerts L) ↔ (fullRowTypes L).getD r RowType.normal ≠ RowType.merged) ∧
    (((r, 2) ∈ drawnVerts L) ↔ (fullRowTypes L).getD r RowType.normal ≠ RowType.merged) ∧
    ((r, 3) ∈ drawnVerts L) := by
  have hr3 : r < 3 := hr
  have hd : drawnVerts L =
      (((if (fullRowTypes L).getD 0 RowType.normal == RowType.merged then [] else [(0, 1)]) ++
          (if (fullRowTypes L).getD 0 RowType.normal == RowType.merged then [] else [(0, 2)]) ++
          [(0, 3)]) ++
        (((if (fullRowTypes L).getD 1 RowType.normal == RowType.merged then [] else [(1, 1)]) ++
            (if (fullRowTypes L).getD 1 RowType.normal == RowType.merged then [] else [(1, 2)]) ++
            [(1, 3)]) ++
          (((if (fullRowTypes L).getD 2 RowType.normal == RowType.merged then []
              else [(2, 1)]) ++
              (if (fullRowTypes L).getD 2 RowType.normal == RowType.merged then []
                else [(2, 2)]) ++
              [(2, 3)]) ++ []))) := rfl
  clear hr
  interval_cases r <;>
    by_cases hm0 : (fullRowTypes L)[0]?.getD RowType.normal = RowType.merged <;>
    by_cases hm1 : (fullRowTypes L)[1]?.getD RowType.normal = RowType.merged <;>
    by_cases hm2 : (fullRowTypes L)[2]?.getD RowType.normal = RowType.merged <;>
    (simp [hd, hm0, hm1, hm2]; try decide)

/-- Helper: every run of a merged row's rendering appears among the emitted
text runs. -/
theorem renderMerged_sub (afm : Char → ℚ) (pw ph : ℚ) (entries : List Entry) (i : ℕ)
    (e : Entry) (tl : List Entry)
    (hL : (buildLayout (isLongOf afm pw) entries TABLE_ROWS)[i]? =
      some (e :: tl, RowType.merged)) :
    ∀ run ∈ renderMerged afm pw ph i e, run ∈ renderTexts afm pw ph entries := by
  intro run hrun
  unfold renderTexts
  have henum : (buildLayout (isLongOf afm pw) entries TABLE_ROWS).enum[i]? =
      some (i, (e :: tl, RowType.merged)) := by
    rw [List.getElem?_enum, hL]; rfl
  have hmem := List.getElem?_mem henum
  refine List.mem_flatten_of_mem (List.mem_map_of_mem _ hmem) ?_
  exact hrun

/-- Helper: the emitted text runs depend only on the placed prefix of the
display list; entries beyond it produce no drawn text. -/
theorem renderTexts_take_prefix (afm : Char → ℚ) (pw ph : ℚ) (entries : List Entry) :
    renderTexts afm pw ph entries =
      renderTexts afm pw ph
        (entries.take
          (layoutFlatten (buildLayout (isLongOf afm pw) entries TABLE_ROWS)).length) := by
  unfold renderTexts
  rw [buildLayout_take (isLongOf afm pw) TABLE_ROWS entries]

/-- Claim C6: a record whose displayed identifier overflows its single cell at
the minimum font size is laid out as a MERGED row: merged rows hold exactly
one long entry, normal rows hold only one or two short entries (so an
overflowing record is never placed in a shared row); the two interior vertical
separators are skipped exactly on merged rows while the final separator
bounding the quantity column is always drawn; and a merged row's quantity is
drawn at the rightmost-column position. -/
theorem C6_merged_rows (afm : Char → ℚ) (pw ph : ℚ) (entries : List Entry) :
    (∀ rt ∈ buildLayout (isLongOf afm pw) entries TABLE_ROWS, rt.2 = RowType.merged →
        ∃ e, rt.1 = [e] ∧ will_overflow_single_cell afm pw e.1 = true) ∧
    (∀ rt ∈ buildLayout (isLongOf afm pw) entries TABLE_ROWS, rt.2 = RowType.normal →
        rt.1 ≠ [] ∧ rt.1.length ≤ 2 ∧
          ∀ e ∈ rt.1, will_overflow_single_cell afm pw e.1 = false) ∧
    (∀ r : ℕ, r < TABLE_ROWS →
        (((r, 1) ∈ drawnVerts (buildLayout (isLongOf afm pw) entries TABLE_ROWS)) ↔
            (fullRowTypes (buildLayout (isLongOf afm pw) entries TABLE_ROWS)).getD r
                RowType.normal ≠ RowType.merged) ∧
        (((r, 2) ∈ drawnVerts (buildLayout (isLongOf afm pw) entries TABLE_ROWS)) ↔
            (fullRowTypes (buildLayout (isLongOf afm pw) entries TABLE_ROWS)).getD r
                RowType.normal ≠ RowType.merged) ∧
        ((r, 3) ∈ drawnVerts (buildLayout (isLongOf afm pw) entries TABLE_ROWS))) ∧
    (∀ (i : ℕ) (nm : String) (q : ℤ) (tl : List Entry),
        (buildLayout (isLongOf afm pw) entries TABLE_ROWS)[i]? =
          some ((nm, some q) :: tl, RowType.merged) →
        q ≠ 0 →
        TextRun.mk (tableX pw + colWidthSku pw + colWidthQty pw + colWidthSku pw)
            (rowYPos ph i) (toString q) baseFontSize ∈ renderTexts afm pw ph entries) := by
  refine ⟨?_, ?_, ?_, ?_⟩
  · intro rt h hm
    exact buildLayout_merged_shape (isLongOf afm pw) TABLE_ROWS entries rt h hm
  · intro rt h hm
    exact buildLayout_normal_shape (isLongOf afm pw) TABLE_ROWS entries rt h hm
  · intro r hr
    exact drawnVerts_spec _ r hr
  · intro i nm q tl hL hq
    apply renderMerged_sub afm pw ph entries i (nm, some q) tl hL
    unfold renderMerged
    apply List.mem_append_right
    simp [qtyTruthy, qtyText, hq]

/-- Witness for C6 at one concrete long entry. -/
theorem C6_merged_rows_witness :
    (∃ e, ([((wName60 : String), (some 2 : Option ℤ))] : List Entry) = [e] ∧
        will_overflow_single_cell afmConst 1000 e.1 = true) ∧
    ((0, 3) ∈ drawnVerts (buildLayout (isLongOf afmConst 1000) entriesC6 TABLE_ROWS)) ∧
    TextRun.mk (tableX 1000 + colWidthSku 1000 + colWidthQty 1000 + colWidthSku 1000)
        (rowYPos 1000 0) (toString (2 : ℤ)) baseFontSize ∈
      renderTexts afmConst 1000 1000 entriesC6 := by
  have h := C6_merged_rows afmConst 1000 1000 entriesC6
  exact ⟨h.1 ([(wName60, some 2)], RowType.merged) (by decide) rfl,
    (h.2.2.1 0 (by decide)).2.2,
    h.2.2.2 0 wName60 2 [] (by decide) (by decide)⟩

/-- Claim C10: the engine lays out at most the configured three rows; the
placed entries are exactly an initial segment of the capped display list and
the emitted text runs are those of that prefix, so entries beyond it —
including the overflow sentinel — produce no drawn text; with eight long
records only the first three of the seven display entries are rendered. -/
theorem C10_row_capacity :
    (∀ (isLong : Entry → Bool) (es : List Entry) (n : ℕ),
        (buildLayout isLong es n).length ≤ n) ∧
    (∀ (isLong : Entry → Bool) (es : List Entry) (n : ℕ),
        layoutFlatten (buildLayout isLong es n) =
          es.take (layoutFlatten (buildLayout isLong es n)).length) ∧
    (∀ (afm : Char → ℚ) (pw ph : ℚ) (entries : List Entry),
        renderTexts afm pw ph entries =
          renderTexts afm pw ph
            (entries.take
              (layoutFlatten (buildLayout (isLongOf afm pw) entries TABLE_ROWS)).length)) ∧
    (display_skus skus8).length = 7 ∧
    (layoutFlatten
        (buildLayout (isLongOf afmConst 1000) (display_skus skus8) TABLE_ROWS)).length = 3 ∧
    (create_sku_table_texts afmConst 1000 1000 skus8).map TextRun.text =
      [wName60, "1", wName60, "1", wName60, "1"] := by
  exact ⟨fun isLong es n => buildLayout_length_le isLong n es,
    fun isLong es n => layoutFlatten_take isLong n es,
    fun afm pw ph entries => renderTexts_take_prefix afm pw ph entries,
    by decide, by decide, by decide⟩

/-- Helper: the cons equation of `splitOnPred`. -/
theorem splitOnPred_cons (p : Char → Bool) (c : Char) (cs : List Char) :
    splitOnPred p (c :: cs) =
      if p c then [] :: splitOnPred p cs
      else
        match splitOnPred p cs with
        | [] => [[c]]
        | g :: gs => (c :: g) :: gs := rfl

/-- Helper: splitting never yields the empty group list. -/
theorem splitOnPred_ne_nil (p : Char → Bool) : ∀ cs, splitOnPred p cs ≠ [] := by
  intro cs
  induction cs with
  | nil => exact List.cons_ne_nil _ _
  | cons c cs ih =>
    rw [splitOnPred_cons]
    by_cases hp : p c = true
    · rw [if_pos hp]; exact List.cons_ne_nil _ _
    · rw [if_neg hp]
      cases hsp : splitOnPred p cs with
      | nil => exact absurd hsp ih
      | cons g gs => exact List.cons_ne_nil _ _

/-- Helper: no group produced by splitting contains a separator character. -/
theorem splitOnPred_groups (p : Char → Bool) :
    ∀ cs, ∀ g ∈ splitOnPred p cs, ∀ c ∈ g, p c = false := by
  intro cs
  induction cs with
  | nil =>
    intro g hg c hc
    rcases List.mem_singleton.mp hg with rfl
    exact absurd hc (List.not_mem_nil c)
  | cons a cs ih =>
    intro g hg c hc
    rw [splitOnPred_cons] at hg
    by_cases hp : p a = true
    · rw [if_pos hp] at hg
      rcases List.mem_cons.mp hg with rfl | h2
      · exact absurd hc (List.not_mem_nil c)
      · exact ih g h2 c hc
    · rw [if_neg hp] at hg
      cases hsp : splitOnPred p cs with
      | nil => exact absurd hsp (splitOnPred_ne_nil p cs)
      | cons g0 gs =>
        rw [hsp] at hg
        rcases List.mem_cons.mp hg with rfl | h2
        · rcases List.mem_cons.mp hc with rfl | hc2
          · simpa using hp
          · exact ih g0 (by rw [hsp]; exact List.mem_cons_self g0 gs) c hc2
        · exact ih g (by rw [hsp]; exact List.mem_cons_of_mem g0 h2) c hc

/-- Helper: splitting a separator-free list is the identity grouping. -/
theorem splitOnPred_sepfree (p : Char → Bool) :
    ∀ cs, (∀ c ∈ cs, p c = false) → splitOnPred p cs = [cs] := by
  intro cs
  induction cs with
  | nil => intro _; rfl
  | cons a cs ih =>
    intro h
    rw [splitOnPred_cons, if_neg (by simp [h a (List.mem_cons_self a cs)]),
      ih (fun c hc => h c (List.mem_cons_of_mem a hc))]

/-- Helper: splitting after a separator-free chunk modifies only the head
group. -/
theorem splitOnPred_append_sepfree (p : Char → Bool) :
    ∀ (g : List Char), (∀ c ∈ g, p c = false) → ∀ X,
      splitOnPred p (g ++ X) = (splitOnPred p X).modifyHead (g ++ ·) := by
  intro g
  induction g with
  | nil =>
    intro _ X
    cases hsp : splitOnPred p X with
    | nil => exact absurd hsp (splitOnPred_ne_nil p X)
    | cons g0 gs => simp [hsp]
  | cons a g ih =>
    intro h X
    rw [List.cons_append, splitOnPred_cons, if_neg (by simp [h a (List.mem_cons_self a g)]),
      ih (fun c hc => h c (List.mem_cons_of_mem a hc)) X]
    cases hsp : splitOnPred p X with
    | nil => exact absurd hsp (splitOnPred_ne_nil p X)
    | cons g0 gs => simp [hsp]

/-- Helper: every group of a Python whitespace split is nonempty and
whitespace-free. -/
theorem pySplitCh_groups (cs : List Char) :
    ∀ g ∈ pySplitCh cs, g ≠ [] ∧ ∀ c ∈ g, pyWs c = false := by
  intro g hg
  have h2 := List.mem_filter.mp hg
  refine ⟨by simpa using h2.2, fun c hc => splitOnPred_groups pyWs cs g h2.1 c hc⟩

/-- Helper: splitting the space-joined list of nonempty whitespace-free groups
recovers the groups. -/
theorem pySplitCh_interSpace :
    ∀ (parts : List (List Char)),
      (∀ g ∈ parts, g ≠ [] ∧ ∀ c ∈ g, pyWs c = false) →
      pySplitCh (interSpace parts) = parts := by
  intro parts
  induction parts with
  | nil => intro _; rfl
  | cons g ps ih =>
    intro h
    have hg := h g (List.mem_cons_self g ps)
    cases ps with
    | nil =>
      show pySplitCh g = [g]
      unfold pySplitCh
      rw [splitOnPred_sepfree pyWs g hg.2]
      simp [hg.1]
    | cons g2 ps2 =>
      show pySplitCh (g ++ ' ' :: interSpace (g2 :: ps2)) = g :: g2 :: ps2
      unfold pySplitCh
      rw [splitOnPred_append_sepfree pyWs g hg.2,
        show splitOnPred pyWs (' ' :: interSpace (g2 :: ps2)) =
            [] :: splitOnPred pyWs (interSpace (g2 :: ps2)) from by
          rw [splitOnPred_cons, if_pos (by decide)]]
      have ihx := ih (fun g' hg' => h g' (List.mem_cons_of_mem g hg'))
      unfold pySplitCh at ihx
      simp only [List.modifyHead_cons, List.append_nil, List.filter_cons]
      simp [hg.1, ihx]

/-- Helper: whitespace normalisation is idempotent. -/
theorem cleanName_idem (s : String) : cleanName (cleanName s) = cleanName s := by
  show String.mk (interSpace (pySplitCh (interSpace (pySplitCh s.data)))) = _
  rw [pySplitCh_interSpace (pySplitCh s.data) (pySplitCh_groups s.data)]
  rfl

/-- Helper: the cons equation of the deduplication loop. -/
theorem dedupeAux_cons (acc : List (String × ℤ)) (r : String × ℤ)
    (rest : List (String × ℤ)) :
    dedupeAux acc (r :: rest) =
      if acc.any (fun p => p.1 == cleanName r.1) then
        dedupeAux (bumpKey (cleanName r.1) r.2 acc) rest
      else dedupeAux (acc ++ [(cleanName r.1, r.2)]) rest := rfl

/-- Helper: the bump update preserves the key sequence. -/
theorem bumpKey_map_fst (key : String) (q : ℤ) :
    ∀ l, (bumpKey key q l).map Prod.fst = l.map Prod.fst := by
  intro l
  induction l with
  | nil => rfl
  | cons r rest ih =>
    by_cases hr : r.1 = key
    · simp [bumpKey, hr]
    · simp [bumpKey, hr, ih]

/-- Helper: first components of bumped entries come from the original list. -/
theorem bumpKey_fst_mem (key : String) (q : ℤ) :
    ∀ l, ∀ p ∈ bumpKey key q l, p.1 ∈ l.map Prod.fst := by
  intro l
  induction l with
  | nil => intro p hp; exact absurd hp (List.not_mem_nil p)
  | cons r rest ih =>
    intro p hp
    by_cases hr : r.1 = key
    · rw [show bumpKey key q (r :: rest) = (r.1, r.2 + q) :: rest from by
        simp [bumpKey, hr]] at hp
      rcases List.mem_cons.mp hp with rfl | h2
      · simp
      · simp only [List.map_cons]
        exact List.mem_cons_of_mem _ (List.mem_map_of_mem Prod.fst h2)
    · rw [show bumpKey key q (r :: rest) = r :: bumpKey key q rest from by
        simp [bumpKey, hr]] at hp
      rcases List.mem_cons.mp hp with rfl | h2
      · simp
      · simp only [List.map_cons]
        exact List.mem_cons_of_mem _ (ih p h2)

/-- Helper: bumping an existing key adds its increment to that key's quantity
sum. -/
theorem bumpKey_filter_sum (key : String) (q : ℤ) (k : String) :
    ∀ l, key ∈ l.map Prod.fst →
      (((bumpKey key q l).filter (fun p => p.1 == k)).map Prod.snd).sum =
        ((l.filter (fun p => p.1 == k)).map Prod.snd).sum + (if key = k then q else 0) := by
  intro l
  induction l with
  | nil => intro h; simp at h
  | cons r rest ih =>
    intro hmem
    by_cases hr : r.1 = key
    · rw [show bumpKey key q (r :: rest) = (r.1, r.2 + q) :: rest from by
        simp [bumpKey, hr]]
      by_cases hkey : key = k
      · have hk : r.1 = k := hr.trans hkey
        simp only [List.filter_cons, hk, beq_self_eq_true, if_true, if_pos hkey,
          List.map_cons, List.sum_cons]
        omega
      · have hk : ¬(r.1 = k) := fun h => hkey (hr.symm.trans h)
        simp only [List.filter_cons, if_neg hkey]
        rw [if_neg (by simpa using hk), if_neg (by simpa using hk)]
        omega
    · rw [show bumpKey key q (r :: rest) = r :: bumpKey key q rest from by
        simp [bumpKey, hr]]
      have hmem2 : key ∈ rest.map Prod.fst := by
        rw [List.map_cons] at hmem
        rcases List.mem_cons.mp hmem with h1 | h2
        · exact absurd h1.symm hr
        · exact h2
      by_cases hk : r.1 = k
      · simp only [List.filter_cons]
        rw [if_pos (by simpa using hk), if_pos (by simpa using hk)]
        simp only [List.map_cons, List.sum_cons, ih hmem2]
        omega
      · simp only [List.filter_cons]
        rw [if_neg (by simpa using hk), if_neg (by simpa using hk)]
        exact ih hmem2

/-- Helper: appending one record adds its quantity to its own key's sum. -/
theorem filter_sum_append (k : String) (l : List (String × ℤ)) (x : String × ℤ) :
    (((l ++ [x]).filter (fun p => p.1 == k)).map Prod.snd).sum =
      ((l.filter (fun p => p.1 == k)).map Prod.snd).sum + (if x.1 = k then x.2 else 0) := by
  by_cases hx : x.1 = k <;>
    simp [List.filter_append, List.filter_cons, hx]

/-- Helper: the deduplicated quantity of each key is the sum of the pending
records with that normalised key, on top of the accumulator's. -/
theorem dedupeAux_filter_sum (k : String) :
    ∀ (l acc : List (String × ℤ)),
      (((dedupeAux acc l).filter (fun p => p.1 == k)).map Prod.snd).sum =
        ((acc.filter (fun p => p.1 == k)).map Prod.snd).sum +
          ((l.filter (fun p => cleanName p.1 == k)).map Prod.snd).sum := by
  intro l
  induction l with
  | nil => intro acc; simp [dedupeAux]
  | cons r rest ih =>
    intro acc
    rw [dedupeAux_cons]
    by_cases hany : acc.any (fun p => p.1 == cleanName r.1) = true
    · rw [if_pos hany, ih]
      have hkey : cleanName r.1 ∈ acc.map Prod.fst := by
        obtain ⟨p', hp', he⟩ := List.any_eq_true.mp hany
        exact List.mem_map.mpr ⟨p', hp', by simpa using he⟩
      rw [bumpKey_filter_sum _ _ _ acc hkey, List.filter_cons]
      by_cases hc : cleanName r.1 = k <;> (simp [hc]; try omega)
    · rw [if_neg hany, ih, filter_sum_append, List.filter_cons]
      by_cases hc : cleanName r.1 = k <;> (simp [hc]; try omega)

/-- Helper: the deduplication loop keeps keys distinct and normalised. -/
theorem dedupeAux_inv :
    ∀ (l acc : List (String × ℤ)),
      (acc.map Prod.fst).Nodup → (∀ p ∈ acc, cleanName p.1 = p.1) →
      ((dedupeAux acc l).map Prod.fst).Nodup ∧
        ∀ p ∈ dedupeAux acc l, cleanName p.1 = p.1 := by
  intro l
  induction l with
  | nil => intro acc h1 h2; exact ⟨h1, h2⟩
  | cons r rest ih =>
    intro acc h1 h2
    rw [dedupeAux_cons]
    by_cases hany : acc.any (fun p => p.1 == cleanName r.1) = true
    · rw [if_pos hany]
      apply ih
      · rw [bumpKey_map_fst]; exact h1
      · intro p hp
        obtain ⟨p', hp', hpe⟩ := List.mem_map.mp (bumpKey_fst_mem _ _ acc p hp)
        exact hpe ▸ h2 p' hp'
    · rw [if_neg hany]
      apply ih
      · have hnot : cleanName r.1 ∉ acc.map Prod.fst := by
          intro hmem
          obtain ⟨p', hp', hpe⟩ := List.mem_map.mp hmem
          exact absurd (List.any_eq_true.mpr ⟨p', hp', by simp [hpe]⟩) hany
        simp [List.map_append, List.nodup_append, h1, hnot]
      · intro p hp
        rcases List.mem_append.mp hp with h | h
        · exact h2 p h
        · rcases List.mem_singleton.mp h with rfl
          exact cleanName_idem r.1

/-- Helper: keys already accumulated survive the deduplication loop. -/
theorem dedupeAux_keys_mono :
    ∀ (l acc : List (String × ℤ)) (x : String),
      x ∈ acc.map Prod.fst → x ∈ (dedupeAux acc l).map Prod.fst := by
  intro l
  induction l with
  | nil => intro acc x h; exact h
  | cons r rest ih =>
    intro acc x h
    rw [dedupeAux_cons]
    by_cases hany : acc.any (fun p => p.1 == cleanName r.1) = true
    · rw [if_pos hany]
      exact ih _ x (by rw [bumpKey_map_fst]; exact h)
    · rw [if_neg hany]
      refine ih _ x ?_
      rw [List.map_append]
      exact List.mem_append_left _ h

/-- Helper: every pending record's normalised key appears in the result. -/
theorem dedupeAux_presence :
    ∀ (l acc : List (String × ℤ)), ∀ p ∈ l,
      cleanName p.1 ∈ (dedupeAux acc l).map Prod.fst := by
  intro l
  induction l with
  | nil => intro acc p hp; exact absurd hp (List.not_mem_nil p)
  | cons r rest ih =>
    intro acc p hp
    rw [dedupeAux_cons]
    rcases List.mem_cons.mp hp with rfl | h2
    · by_cases hany : acc.any (fun p2 => p2.1 == cleanName p.1) = true
      · rw [if_pos hany]
        apply dedupeAux_keys_mono
        rw [bumpKey_map_fst]
        obtain ⟨p', hp', he⟩ := List.any_eq_true.mp hany
        exact List.mem_map.mpr ⟨p', hp', by simpa using he⟩
      · rw [if_neg hany]
        apply dedupeAux_keys_mono
        rw [List.map_append]
        exact List.mem_append_right _ (by simp)
    · by_cases hany : acc.any (fun p2 => p2.1 == cleanName r.1) = true
      · rw [if_pos hany]; exact ih _ p h2
      · rw [if_neg hany]; exact ih _ p h2

/-- Helper: with distinct keys, filtering a member's key isolates exactly that
record. -/
theorem filter_eq_single_of_nodup :
    ∀ (l : List (String × ℤ)), (l.map Prod.fst).Nodup → ∀ r ∈ l,
      l.filter (fun p => p.1 == r.1) = [r] := by
  intro l
  induction l with
  | nil => intro _ r hr; exact absurd hr (List.not_mem_nil r)
  | cons a rest ih =>
    intro hnd r hr
    have hnd2 : (rest.map Prod.fst).Nodup := (List.nodup_cons.mp (by simpa using hnd)).2
    have hnotin : a.1 ∉ rest.map Prod.fst := (List.nodup_cons.mp (by simpa using hnd)).1
    rcases List.mem_cons.mp hr with rfl | h2
    · rw [List.filter_cons, if_pos (by simp)]
      have : rest.filter (fun p => p.1 == r.1) = [] := by
        apply List.filter_eq_nil_iff.mpr
        intro p hp
        intro he
        exact hnotin (by
          have : p.1 = r.1 := by simpa using he
          exact this ▸ List.mem_map_of_mem Prod.fst hp)
      rw [this]
    · have hne : ¬(a.1 == r.1) = true := by
        intro he
        have hfst : a.1 = r.1 := by simpa using he
        exact hnotin (hfst ▸ List.mem_map_of_mem Prod.fst h2)
      rw [List.filter_cons, if_neg hne]
      exact ih hnd2 r h2

/-- Claim C7: the text-based extractor returns at most one record per
whitespace-normalised identifier (the cleaned identifiers are pairwise
distinct), each returned quantity is the sum of the quantities of all
pre-deduplication records whose normalised identifier matches, and every
pre-deduplication record's normalised identifier does appear in the output. -/
theorem C7_dedup (wl : List String) (text : String) :
    List.Pairwise (fun a b => cleanName a.1 ≠ cleanName b.1)
      (extract_sku_from_packing_slip wl text) ∧
    (∀ r ∈ extract_sku_from_packing_slip wl text,
        r.2 =
          (((rawSkus wl text).filter (fun p => cleanName p.1 == r.1)).map Prod.snd).sum) ∧
    (∀ p ∈ rawSkus wl text,
        ∃ r ∈ extract_sku_from_packing_slip wl text, r.1 = cleanName p.1) := by
  obtain ⟨hnd, hfix⟩ := dedupeAux_inv (rawSkus wl text) [] (by simp) (by simp)
  refine ⟨?_, ?_, ?_⟩
  · have hp : List.Pairwise (fun a b : String × ℤ => a.1 ≠ b.1)
        (dedupeAux [] (rawSkus wl text)) := List.pairwise_map.mp hnd
    refine hp.imp_of_mem ?_
    intro a b ha hb hne
    rw [hfix a ha, hfix b hb]
    exact hne
  · intro r hr
    have huniq := filter_eq_single_of_nodup (dedupeAux [] (rawSkus wl text)) hnd r hr
    have hsum := dedupeAux_filter_sum r.1 (rawSkus wl text) []
    rw [huniq] at hsum
    simpa using hsum
  · intro p hp
    obtain ⟨r, hr, hre⟩ := List.mem_map.mp (dedupeAux_presence (rawSkus wl text) [] p hp)
    exact ⟨r, hr, hre⟩

/-- Witness for C7: the duplicated identifier is merged with summed quantity. -/
theorem C7_dedup_witness :
    (("Ink-A", (12 : ℤ)) ∈ extract_sku_from_packing_slip [] dupText) ∧
    (12 : ℤ) =
      (((rawSkus [] dupText).filter (fun p => cleanName p.1 == "Ink-A")).map Prod.snd).sum := by
  refine ⟨by decide, ?_⟩
  exact (C7_dedup [] dupText).2.1 ("Ink-A", 12) (by decide)

/-- Helper: the merge loop on the empty row list. -/
theorem mergeRowsAux_nil (wl : List String) (k : ℕ) : mergeRowsAux wl k [] = [] := by
  cases k <;> rfl

/-- Helper: a positive skip counter passes over the next row. -/
theorem mergeRowsAux_succ (wl : List String) (k : ℕ) (r : RowInfo) (rest : List RowInfo) :
    mergeRowsAux wl (k + 1) (r :: rest) = mergeRowsAux wl k rest := rfl

/-- Helper: at skip counter zero a start row opens a group. -/
theorem mergeRowsAux_zero (wl : List String) (cur : RowInfo) (rest : List RowInfo) :
    mergeRowsAux wl 0 (cur :: rest) =
      if isStartRow wl cur then
        ⟨cur.sku_tokens ++ (absorb rest).1, cur.qty_candidates⟩ ::
          mergeRowsAux wl (absorb rest).2 rest
      else mergeRowsAux wl 0 rest := rfl

/-- Helper: every merged group takes its quantity candidates from one of the
input rows (its start row), whose tokens it extends. -/
theorem mergeRowsAux_start (wl : List String) :
    ∀ (l : List RowInfo) (k : ℕ), ∀ g ∈ mergeRowsAux wl k l,
      ∃ ri ∈ l, g.qty_candidates = ri.qty_candidates ∧
        ∃ ts, g.sku_tokens = ri.sku_tokens ++ ts ∧ isStartRow wl ri = true := by
  intro l
  induction l with
  | nil =>
    intro k g hg
    rw [mergeRowsAux_nil] at hg
    exact absurd hg (List.not_mem_nil g)
  | cons cur rest ih =>
    intro k g hg
    cases k with
    | succ k2 =>
      rw [mergeRowsAux_succ] at hg
      obtain ⟨ri, hri, h⟩ := ih k2 g hg
      exact ⟨ri, List.mem_cons_of_mem cur hri, h⟩
    | zero =>
      rw [mergeRowsAux_zero] at hg
      by_cases hs : isStartRow wl cur = true
      · rw [if_pos hs] at hg
        rcases List.mem_cons.mp hg with rfl | h2
        · exact ⟨cur, List.mem_cons_self cur rest, rfl, (absorb rest).1, rfl, hs⟩
        · obtain ⟨ri, hri, h⟩ := ih _ g h2
          exact ⟨ri, List.mem_cons_of_mem cur hri, h⟩
      · rw [if_neg hs] at hg
        obtain ⟨ri, hri, h⟩ := ih 0 g hg
        exact ⟨ri, List.mem_cons_of_mem cur hri, h⟩

/-- Helper: one result step either keeps the accumulator or appends the
group's record. -/
theorem buildResultStep_sub (wl : List String) (acc : List (String × ℤ)) (g : MRow) :
    ∀ r ∈ buildResultStep wl acc g,
      r ∈ acc ∨
        (r = (normalize_sku_by_whitelist wl (joinSpace g.sku_tokens),
            g.qty_candidates.getLastD 1) ∧
          (containsStr r.1 "Ink-" = true ∨ r.1 ∈ wl)) := by
  intro r hr
  unfold buildResultStep at hr
  by_cases he : g.sku_tokens.isEmpty = true
  · rw [if_pos he] at hr
    exact Or.inl hr
  · rw [if_neg he] at hr
    by_cases hc : containsStr (normalize_sku_by_whitelist wl (joinSpace g.sku_tokens)) "Ink-"
        = true ∨ normalize_sku_by_whitelist wl (joinSpace g.sku_tokens) ∈ wl
    · rw [if_pos hc] at hr
      rcases List.mem_append.mp hr with h | h
      · exact Or.inl h
      · rcases List.mem_singleton.mp h with rfl
        exact Or.inr ⟨rfl, hc⟩
    · rw [if_neg hc] at hr
      exact Or.inl hr

/-- Helper: records produced by the result fold come from some input group. -/
theorem buildResult_fold_mem (wl : List String) :
    ∀ (gs : List MRow) (acc : List (String × ℤ)),
      ∀ r ∈ gs.foldl (buildResultStep wl) acc,
        r ∈ acc ∨ ∃ g ∈ gs,
          r.1 = normalize_sku_by_whitelist wl (joinSpace g.sku_tokens) ∧
          r.2 = g.qty_candidates.getLastD 1 ∧
          (containsStr r.1 "Ink-" = true ∨ r.1 ∈ wl) := by
  intro gs
  induction gs with
  | nil => intro acc r hr; exact Or.inl hr
  | cons g gs ih =>
    intro acc r hr
    rw [List.foldl_cons] at hr
    rcases ih _ r hr with hacc | ⟨g2, hg2, h⟩
    · rcases buildResultStep_sub wl acc g r hacc with h1 | ⟨heq, hcond⟩
      · exact Or.inl h1
      · exact Or.inr ⟨g, List.mem_cons_self g gs, by rw [heq], by rw [heq], hcond⟩
    · exact Or.inr ⟨g2, List.mem_cons_of_mem g hg2, h⟩

/-- Helper: the result fold only appends. -/
theorem buildResult_fold_mono (wl : List String) :
    ∀ (gs : List MRow) (acc : List (String × ℤ)) (r : String × ℤ),
      r ∈ acc → r ∈ gs.foldl (buildResultStep wl) acc := by
  intro gs
  induction gs with
  | nil => intro acc r h; exact h
  | cons g gs ih =>
    intro acc r h
    rw [List.foldl_cons]
    refine ih _ r ?_
    unfold buildResultStep
    by_cases he : g.sku_tokens.isEmpty = true
    · rw [if_pos he]; exact h
    · rw [if_neg he]
      by_cases hc : containsStr (normalize_sku_by_whitelist wl (joinSpace g.sku_tokens)) "Ink-"
          = true ∨ normalize_sku_by_whitelist wl (joinSpace g.sku_tokens) ∈ wl
      · rw [if_pos hc]; exact List.mem_append_left _ h
      · rw [if_neg hc]; exact h

/-- Helper: every accepted group contributes its record to the result. -/
theorem buildResult_fold_complete (wl : List String) :
    ∀ (gs : List MRow) (acc : List (String × ℤ)), ∀ g ∈ gs, g.sku_tokens ≠ [] →
      (containsStr (normalize_sku_by_whitelist wl (joinSpace g.sku_tokens)) "Ink-" = true ∨
        normalize_sku_by_whitelist wl (joinSpace g.sku_tokens) ∈ wl) →
      (normalize_sku_by_whitelist wl (joinSpace g.sku_tokens),
        g.qty_candidates.getLastD 1) ∈ gs.foldl (buildResultStep wl) acc := by
  intro gs
  induction gs with
  | nil => intro acc g hg; exact absurd hg (List.not_mem_nil g)
  | cons g0 gs ih =>
    intro acc g hg hne hcond
    rw [List.foldl_cons]
    rcases List.mem_cons.mp hg with rfl | h2
    · apply buildResult_fold_mono
      unfold buildResultStep
      rw [if_neg (by simpa using hne), if_pos hcond]
      exact List.mem_append_right _ (by simp)
    · exact ih _ g h2 hne hcond

/-- Claim C8 (amended): every merged group's record carries the normalised
space-joined tokens of its start row and continuations and is accepted only
when the normalised identifier contains "Ink-" or is a whitelist entry; its
quantity is the last numeric candidate of the group's start row — candidates
on absorbed continuation rows are discarded — or 1 when the start row has
none. -/
theorem C8_group_records (wl : List String) :
    (∀ (l : List RowInfo), ∀ g ∈ mergeRows wl l,
        ∃ ri ∈ l, g.qty_candidates = ri.qty_candidates ∧
          ∃ ts, g.sku_tokens = ri.sku_tokens ++ ts ∧ isStartRow wl ri = true) ∧
    (∀ (gs : List MRow), ∀ r ∈ buildResult wl gs,
        ∃ g ∈ gs,
          r.1 = normalize_sku_by_whitelist wl (joinSpace g.sku_tokens) ∧
          r.2 = g.qty_candidates.getLastD 1 ∧
          (containsStr r.1 "Ink-" = true ∨ r.1 ∈ wl)) ∧
    (∀ (gs : List MRow), ∀ g ∈ gs, g.sku_tokens ≠ [] →
        (containsStr (normalize_sku_by_whitelist wl (joinSpace g.sku_tokens)) "Ink-" = true ∨
          normalize_sku_by_whitelist wl (joinSpace g.sku_tokens) ∈ wl) →
        (normalize_sku_by_whitelist wl (joinSpace g.sku_tokens),
          g.qty_candidates.getLastD 1) ∈ buildResult wl gs) := by
  refine ⟨fun l g hg => mergeRowsAux_start wl l 0 g hg, ?_, ?_⟩
  · intro gs r hr
    rcases buildResult_fold_mem wl gs [] r hr with h | h
    · exact absurd h (List.not_mem_nil r)
    · exact h
  · intro gs g hg h1 h2
    exact buildResult_fold_complete wl gs [] g hg h1 h2

/-- Witness for the amended C8 at the two-row page's group. -/
theorem C8_group_records_witness :
    (∃ ri ∈ pageRowsInfo c8page w8Seller w8Qty,
        (MRow.mk ["Ink-A", "B2"] []).qty_candidates = ri.qty_candidates ∧
        ∃ ts, (MRow.mk ["Ink-A", "B2"] []).sku_tokens = ri.sku_tokens ++ ts ∧
          isStartRow [] ri = true) ∧
    (∃ g ∈ [MRow.mk ["Ink-A", "B2"] []],
        ("Ink-A B2", (1 : ℤ)).1 = normalize_sku_by_whitelist [] (joinSpace g.sku_tokens) ∧
        ("Ink-A B2", (1 : ℤ)).2 = g.qty_candidates.getLastD 1 ∧
        (containsStr "Ink-A B2" "Ink-" = true ∨ ("Ink-A B2" : String) ∈ ([] : List String))) := by
  refine ⟨(C8_group_records []).1 (pageRowsInfo c8page w8Seller w8Qty)
      (MRow.mk ["Ink-A", "B2"] []) (by decide),
    (C8_group_records []).2.1 [MRow.mk ["Ink-A", "B2"] []] ("Ink-A B2", 1) (by decide)⟩

/-- Helper: a whitelist line quantity is never negative. -/
theorem wlLineQty_nonneg (name line : String) : 0 ≤ wlLineQty name line := by
  unfold wlLineQty
  cases h : reSearchQty name.data line.data with
  | none => exact zero_le_one
  | some n => exact Int.natCast_nonneg n

/-- Helper: records matched from the whitelist on one line have nonnegative
quantities. -/
theorem wlLineMatches_nonneg (wl : List String) (line : String) :
    ∀ r ∈ wlLineMatches wl line, 0 ≤ r.2 := by
  unfold wlLineMatches
  suffices h : ∀ (ws : List String) (acc : List (String × ℤ)), (∀ r ∈ acc, 0 ≤ r.2) →
      ∀ r ∈ ws.foldl
          (fun acc name =>
            if containsStr line name then acc ++ [(name, wlLineQty name line)] else acc)
          acc, 0 ≤ r.2 by
    exact fun r hr => h wl [] (by simp) r hr
  intro ws
  induction ws with
  | nil => intro acc hacc r hr; exact hacc r hr
  | cons n rest ih =>
    intro acc hacc r hr
    rw [List.foldl_cons] at hr
    refine ih _ ?_ r hr
    by_cases hc : containsStr line n = true
    · rw [if_pos hc]
      intro r2 hr2
      rcases List.mem_append.mp hr2 with h | h
      · exact hacc r2 h
      · rcases List.mem_singleton.mp h with rfl
        exact wlLineQty_nonneg n line
    · rw [if_neg hc]; exact hacc

/-- Helper: the cons equation of the token collection. -/
theorem collectParts_cons (p : String) (rest : List String) :
    collectParts (p :: rest) =
      match pyInt p with
      | some q => ([], some q)
      | none => (p :: (collectParts rest).1, (collectParts rest).2) := rfl

/-- Helper: the collected quantity is the parse of one of the tokens. -/
theorem collectParts_qty (ps : List String) :
    ∀ q, (collectParts ps).2 = some q → ∃ p ∈ ps, pyInt p = some q := by
  induction ps with
  | nil => intro q h; simp [collectParts] at h
  | cons p rest ih =>
    intro q h
    rw [collectParts_cons] at h
    cases hp : pyInt p with
    | some q2 =>
      rw [hp] at h
      refine ⟨p, List.mem_cons_self p rest, ?_⟩
      rw [hp]
      exact h
    | none =>
      rw [hp] at h
      obtain ⟨p2, hp2, hpe⟩ := ih q h
      exact ⟨p2, List.mem_cons_of_mem p hp2, hpe⟩

/-- Helper: the token hypothesis transported to one line. -/
theorem noNeg_line (text : String) (h : noNegIntTokens text = true) :
    ∀ line ∈ splitLines text, ∀ tok ∈ pySplit (pyStrip line), ∀ z, pyInt tok = some z →
      0 ≤ z := by
  intro line hline tok htok z hz
  unfold noNegIntTokens at h
  have h1 := (List.all_eq_true.mp h) line hline
  have h2 := (List.all_eq_true.mp h1) tok htok
  rw [hz] at h2
  simpa using h2

/-- Helper: blank-line finalisation preserves nonnegative quantities. -/
theorem blankStep_nonneg (st : ExtState)
    (h1 : ∀ r ∈ st.skus, 0 ≤ r.2) (h2 : ∀ q, st.curQty = some q → 0 ≤ q) :
    (∀ r ∈ (blankStep st).skus, 0 ≤ r.2) ∧
      ∀ q, (blankStep st).curQty = some q → 0 ≤ q := by
  unfold blankStep
  split
  next q0 hq =>
    by_cases hp : st.curParts.isEmpty = true
    · rw [if_pos hp]
      exact ⟨h1, h2⟩
    · rw [if_neg hp]
      refine ⟨?_, by simp⟩
      intro r hr
      rcases List.mem_append.mp hr with h | h
      · exact h1 r h
      · rcases List.mem_singleton.mp h with rfl
        exact h2 q0 hq
  next hq => exact ⟨h1, h2⟩

/-- Helper: end-of-text finalisation preserves nonnegative quantities. -/
theorem finalStep_nonneg (st : ExtState)
    (h1 : ∀ r ∈ st.skus, 0 ≤ r.2) (h2 : ∀ q, st.curQty = some q → 0 ≤ q) :
    ∀ r ∈ (finalStep st).skus, 0 ≤ r.2 := by
  unfold finalStep
  split
  next q0 hq =>
    by_cases hp : st.curParts.isEmpty = true
    · rw [if_pos hp]; exact h1
    · rw [if_neg hp]
      intro r hr
      rcases List.mem_append.mp hr with h | h
      · exact h1 r h
      · rcases List.mem_singleton.mp h with rfl
        exact h2 q0 hq
  next hq => exact h1

/-- Helper: the marker-line step preserves nonnegative quantities and the
pending quantity slot. -/
theorem inkStep_nonneg (line : String) (next? : Option String) (st : ExtState)
    (h1 : ∀ r ∈ st.skus, 0 ≤ r.2)
    (hline : ∀ tok ∈ pySplit line, ∀ z, pyInt tok = some z → 0 ≤ z) :
    (∀ r ∈ (inkStep line next? st).skus, 0 ≤ r.2) ∧
      (inkStep line next? st).curQty = st.curQty := by
  simp only [inkStep]
  split
  next => exact ⟨h1, rfl⟩
  next j hj =>
    by_cases hemp : (collectParts ((pySplit line).drop j)).1.isEmpty = true
    · rw [if_pos hemp]; exact ⟨h1, rfl⟩
    · rw [if_neg hemp]
      split
      next qty hq =>
        refine ⟨?_, rfl⟩
        intro r hr
        rcases List.mem_append.mp hr with h | h
        · exact h1 r h
        · rcases List.mem_singleton.mp h with rfl
          obtain ⟨p, hp, hpe⟩ := collectParts_qty ((pySplit line).drop j) qty hq
          exact hline p (List.drop_subset j (pySplit line) hp) qty hpe
      next hq => exact ⟨h1, rfl⟩

/-- Helper: the plain-line step preserves nonnegative quantities. -/
theorem nonInkStep_nonneg (line : String) (st : ExtState)
    (h1 : ∀ r ∈ st.skus, 0 ≤ r.2) (h2 : ∀ q, st.curQty = some q → 0 ≤ q)
    (hline : ∀ tok ∈ pySplit line, ∀ z, pyInt tok = some z → 0 ≤ z) :
    (∀ r ∈ (nonInkStep line st).skus, 0 ≤ r.2) ∧
      ∀ q, (nonInkStep line st).curQty = some q → 0 ≤ q := by
  unfold nonInkStep
  split
  next hf => exact ⟨h1, h2⟩
  next q hf =>
    by_cases hp : st.curParts.isEmpty = true
    · rw [if_pos hp]; exact ⟨h1, h2⟩
    · rw [if_neg hp]
      refine ⟨?_, by simp⟩
      intro r hr
      rcases List.mem_append.mp hr with h | h
      · exact h1 r h
      · rcases List.mem_singleton.mp h with rfl
        obtain ⟨p, hp2, hpe⟩ := List.exists_of_findSome?_eq_some hf
        exact hline p hp2 q hpe

/-- Helper: the post-header part of a line-loop iteration preserves
nonnegative quantities, for any intermediate state. -/
theorem lineStepTail_nonneg (wl : List String) (line : String) (next? : Option String)
    (st1 : ExtState)
    (h1 : ∀ r ∈ st1.skus, 0 ≤ r.2) (h2 : ∀ q, st1.curQty = some q → 0 ≤ q)
    (hline : ∀ tok ∈ pySplit line, ∀ z, pyInt tok = some z → 0 ≤ z) :
    (∀ r ∈ (if (!st1.foundHeader) = true then st1
            else if (!(wlLineMatches wl line).isEmpty) = true then
              { st1 with skus := st1.skus ++ wlLineMatches wl line }
            else if containsStr line "Ink-" = true then inkStep line next? st1
            else nonInkStep line st1).skus, 0 ≤ r.2) ∧
      ∀ q, (if (!st1.foundHeader) = true then st1
            else if (!(wlLineMatches wl line).isEmpty) = true then
              { st1 with skus := st1.skus ++ wlLineMatches wl line }
            else if containsStr line "Ink-" = true then inkStep line next? st1
            else nonInkStep line st1).curQty = some q → 0 ≤ q := by
  by_cases hfh : (!st1.foundHeader) = true
  · rw [if_pos hfh]; exact ⟨h1, h2⟩
  · rw [if_neg hfh]
    by_cases hm : (!(wlLineMatches wl line).isEmpty) = true
    · rw [if_pos hm]
      refine ⟨?_, h2⟩
      intro r hr
      rcases List.mem_append.mp hr with h | h
      · exact h1 r h
      · exact wlLineMatches_nonneg wl line r h
    · rw [if_neg hm]
      by_cases hik : containsStr line "Ink-" = true
      · rw [if_pos hik]
        obtain ⟨g1, g2⟩ := inkStep_nonneg line next? st1 h1 hline
        exact ⟨g1, fun q hq => h2 q (g2 ▸ hq)⟩
      · rw [if_neg hik]
        exact nonInkStep_nonneg line st1 h1 h2 hline

/-- Helper: one line-loop iteration preserves nonnegative quantities. -/
theorem lineStep_nonneg (wl : List String) (rawLine : String) (next? : Option String)
    (i : ℕ) (st : ExtState)
    (h1 : ∀ r ∈ st.skus, 0 ≤ r.2) (h2 : ∀ q, st.curQty = some q → 0 ≤ q)
    (hline : ∀ tok ∈ pySplit (pyStrip rawLine), ∀ z, pyInt tok = some z → 0 ≤ z) :
    (∀ r ∈ (lineStep wl rawLine next? i st).skus, 0 ≤ r.2) ∧
      ∀ q, (lineStep wl rawLine next? i st).curQty = some q → 0 ≤ q := by
  unfold lineStep
  by_cases h0 : pyStrip rawLine = ""
  · rw [if_pos h0]
    exact blankStep_nonneg st h1 h2
  · rw [if_neg h0]
    by_cases hh : isHeaderLine (pyStrip rawLine) = true
    · rw [if_pos hh]; exact ⟨h1, h2⟩
    · rw [if_neg hh]
      by_cases hqt : containsStr (upperStr (pyStrip rawLine)) "QTY TOTAL" = true ∧
          st.qtyTotalIdx = none
      · rw [if_pos hqt]
        exact lineStepTail_nonneg wl (pyStrip rawLine) next?
          { st with qtyTotalIdx := some i } h1 h2 hline
      · rw [if_neg hqt]
        exact lineStepTail_nonneg wl (pyStrip rawLine) next? st h1 h2 hline

/-- Helper: the line loop preserves nonnegative quantities. -/
theorem extractLoop_nonneg (wl : List String) :
    ∀ (lines : List String) (i : ℕ) (st : ExtState),
      (∀ r ∈ st.skus, 0 ≤ r.2) → (∀ q, st.curQty = some q → 0 ≤ q) →
      (∀ line ∈ lines, ∀ tok ∈ pySplit (pyStrip line), ∀ z, pyInt tok = some z → 0 ≤ z) →
      (∀ r ∈ (extractLoop wl lines i st).skus, 0 ≤ r.2) ∧
        ∀ q, (extractLoop wl lines i st).curQty = some q → 0 ≤ q := by
  intro lines
  induction lines with
  | nil => intro i st h1 h2 _; exact ⟨h1, h2⟩
  | cons l rest ih =>
    intro i st h1 h2 hall
    obtain ⟨g1, g2⟩ :=
      lineStep_nonneg wl l rest.head? i st h1 h2 (hall l (List.mem_cons_self l rest))
    exact ih (i + 1) _ g1 g2 (fun line hl => hall line (List.mem_cons_of_mem l hl))

/-- Helper: one backfill candidate preserves nonnegative quantities. -/
theorem backfillStep_nonneg (regionText : String) (existing : List String)
    (acc : List (String × ℤ)) (cand : String) (h : ∀ r ∈ acc, 0 ≤ r.2) :
    ∀ r ∈ backfillStep regionText existing acc cand, 0 ≤ r.2 := by
  unfold backfillStep
  by_cases h1 : cand ∈ existing
  · rw [if_pos h1]; exact h
  · rw [if_neg h1]
    by_cases h2 : containsStr regionText cand = true
    · rw [if_pos h2]
      intro r hr
      rcases List.mem_append.mp hr with hx | hx
      · exact h r hx
      · rcases List.mem_singleton.mp hx with rfl
        exact zero_le_one
    · rw [if_neg h2]
      split
      next bp hc =>
        split
        next h3 =>
          intro r hr
          rcases List.mem_append.mp hr with hx | hx
          · exact h r (List.mem_filter.mp hx).1
          · rcases List.mem_singleton.mp hx with rfl
            exact zero_le_one
        next h3 => exact h
      next hc => exact h

/-- Helper: the backfill pass preserves nonnegative quantities. -/
theorem backfill_nonneg (wl : List String) (lines : List String) (st : ExtState)
    (h1 : ∀ r ∈ st.skus, 0 ≤ r.2) :
    ∀ r ∈ backfill wl lines st, 0 ≤ r.2 := by
  unfold backfill
  split
  next hh => exact h1
  next hidx hh =>
    by_cases hw : wl.isEmpty = true
    · rw [if_pos hw]; exact h1
    · rw [if_neg hw]
      suffices hgen : ∀ (ws : List String) (rt : String) (ex : List String)
          (acc : List (String × ℤ)), (∀ r ∈ acc, 0 ≤ r.2) →
          ∀ r ∈ ws.foldl (backfillStep rt ex) acc, 0 ≤ r.2 by
        exact hgen wl _ _ st.skus h1
      intro ws
      induction ws with
      | nil => intro rt ex acc hacc r hr; exact hacc r hr
      | cons c rest ih =>
        intro rt ex acc hacc r hr
        rw [List.foldl_cons] at hr
        exact ih rt ex _ (backfillStep_nonneg rt ex acc c hacc) r hr

/-- Helper: deduplication preserves nonnegative quantities. -/
theorem dedupeSkus_nonneg (l : List (String × ℤ)) (h : ∀ p ∈ l, 0 ≤ p.2) :
    ∀ r ∈ dedupeSkus l, 0 ≤ r.2 := by
  intro r hr
  obtain ⟨hnd, _⟩ := dedupeAux_inv l [] (by simp) (by simp)
  have huniq := filter_eq_single_of_nodup (dedupeAux [] l) hnd r hr
  have hsum := dedupeAux_filter_sum r.1 l []
  rw [huniq] at hsum
  simp only [List.map_cons, List.map_nil, List.sum_cons, List.sum_nil, add_zero,
    List.filter_nil, zero_add] at hsum
  rw [hsum]
  apply List.sum_nonneg
  intro x hx
  obtain ⟨p, hp, hpe⟩ := List.mem_map.mp hx
  exact hpe ▸ h p (List.mem_filter.mp hp).1

/-- Helper: all quantities of the text-based extractor are nonnegative when no
token parses as a negative integer. -/
theorem extract_text_nonneg (wl : List String) (text : String)
    (h : noNegIntTokens text = true) :
    ∀ r ∈ extract_sku_from_packing_slip wl text, 0 ≤ r.2 := by
  apply dedupeSkus_nonneg
  obtain ⟨g1, g2⟩ :=
    extractLoop_nonneg wl (splitLines text) 0 {} (by simp) (by simp) (noNeg_line text h)
  exact backfill_nonneg wl (splitLines text) _ (finalStep_nonneg _ g1 g2)

/-- Helper: one word of the per-row walk only ever adds a digit-string value
(a natural number) as a quantity candidate. -/
theorem rowInfoStep_nonneg (skuMin skuMax : ℚ) (ri : RowInfo) (w : Word)
    (h : ∀ q ∈ ri.qty_candidates, 0 ≤ q) :
    ∀ q ∈ (rowInfoStep skuMin skuMax ri w).qty_candidates, 0 ≤ q := by
  intro q hq
  revert hq
  simp only [rowInfoStep]
  split
  next => exact fun hx => h q hx
  next h0 =>
    split
    next => exact fun hx => h q hx
    next h1 =>
      split
      next hB =>
        intro hq
        rcases List.mem_append.mp hq with hx | hx
        · revert hx
          split
          next hA => exact fun hx => h q hx
          next hA => exact fun hx => h q hx
        · rcases List.mem_singleton.mp hx with rfl
          exact Int.natCast_nonneg _
      next hB =>
        split
        next hA => exact fun hx => h q hx
        next hA => exact fun hx => h q hx

/-- Helper: all quantity candidates of a row are nonnegative. -/
theorem buildRowInfo_nonneg (skuMin skuMax : ℚ) (row : List Word) :
    ∀ q ∈ (buildRowInfo skuMin skuMax row).qty_candidates, 0 ≤ q := by
  unfold buildRowInfo
  suffices hgen : ∀ (ws : List Word) (ri : RowInfo), (∀ q ∈ ri.qty_candidates, 0 ≤ q) →
      ∀ q ∈ (ws.foldl (rowInfoStep skuMin skuMax) ri).qty_candidates, 0 ≤ q by
    exact hgen _ ⟨[], []⟩ (by simp)
  intro ws
  induction ws with
  | nil => intro ri h q hq; exact h q hq
  | cons w rest ih =>
    intro ri h
    rw [List.foldl_cons]
    exact ih _ (rowInfoStep_nonneg skuMin skuMax ri w h)

/-- Helper: all quantity candidates of the extracted row infos are
nonnegative. -/
theorem pageRowsInfo_nonneg (p : PPage) (sw qw : Word) :
    ∀ ri ∈ pageRowsInfo p sw qw, ∀ q ∈ ri.qty_candidates, 0 ≤ q := by
  intro ri hri
  simp only [pageRowsInfo, List.mem_filterMap] at hri
  obtain ⟨row, hrow, he⟩ := hri
  by_cases hemp : (buildRowInfo sw.x0 qw.x0 row).sku_tokens.isEmpty = true
  · rw [if_pos hemp] at he
    exact absurd he (by simp)
  · rw [if_neg hemp] at he
    obtain rfl : buildRowInfo sw.x0 qw.x0 row = ri := Option.some.inj he
    exact buildRowInfo_nonneg sw.x0 qw.x0 row

/-- Helper: all quantities of the coordinate pipeline's result are
nonnegative. -/
theorem buildResult_nonneg (wl : List String) (p : PPage) (sw qw : Word) :
    ∀ r ∈ buildResult wl (mergeRows wl (pageRowsInfo p sw qw)), 0 ≤ r.2 := by
  intro r hr
  rcases buildResult_fold_mem wl (mergeRows wl (pageRowsInfo p sw qw)) [] r hr with
    h | ⟨g, hg, _, hq2, _⟩
  · exact absurd h (List.not_mem_nil r)
  · obtain ⟨ri, hri, he, _⟩ := mergeRowsAux_start wl (pageRowsInfo p sw qw) 0 g hg
    rw [hq2, he]
    have hmem := List.getLastD_mem_cons ri.qty_candidates (1 : ℤ)
    rcases List.mem_cons.mp hmem with h1 | h1
    · rw [h1]; exact zero_le_one
    · exact pageRowsInfo_nonneg p sw qw ri hri _ h1

/-- Helper: all quantities of the coordinate extractor are nonnegative when no
whitespace token of the page's plain text parses as a negative integer. -/
theorem extract_page_nonneg (wl : List String) (p : PPage)
    (h : noNegIntTokens p.text = true) :
    ∀ r ∈ extract_sku_from_page wl p, 0 ≤ r.2 := by
  cases hwi : p.words.isEmpty with
  | true =>
    simp only [extract_sku_from_page, hwi, if_true]
    intro r hr
    exact absurd hr (List.not_mem_nil r)
  | false =>
    cases hsel : sellerWord p.words with
    | none =>
      simp only [extract_sku_from_page, hwi, Bool.false_eq_true, if_false, hsel]
      exact extract_text_nonneg wl p.text h
    | some sw =>
      cases hq : qtyHeaderWord p.words with
      | none =>
        simp only [extract_sku_from_page, hwi, Bool.false_eq_true, if_false, hsel, hq]
        exact extract_text_nonneg wl p.text h
      | some qw =>
        simp only [extract_sku_from_page, hwi, Bool.false_eq_true, if_false, hsel, hq]
        by_cases hle : qw.x0 ≤ sw.x0
        · rw [if_pos hle]
          exact extract_text_nonneg wl p.text h
        · rw [if_neg hle]
          by_cases hres :
              (buildResult wl (mergeRows wl (pageRowsInfo p sw qw))).isEmpty = true
          · rw [if_pos hres]
            exact extract_text_nonneg wl p.text h
          · rw [if_neg hres]
            exact buildResult_nonneg wl p sw qw

/-- Claim C9 (amended): quantities are integers, and every record of either
extractor has a nonnegative quantity provided no whitespace token of the
parsed text (for the coordinate extractor: of its page's plain text, which
its fallbacks parse) is a negative integer literal; the coordinate pipeline's
own candidates come from digit-only tokens and are always nonnegative. -/
theorem C9_qty_nonneg :
    (∀ (wl : List String) (text : String), noNegIntTokens text = true →
        ∀ r ∈ extract_sku_from_packing_slip wl text, 0 ≤ r.2) ∧
      ∀ (wl : List String) (p : PPage), noNegIntTokens p.text = true →
        ∀ r ∈ extract_sku_from_page wl p, 0 ≤ r.2 :=
  ⟨fun wl text h => extract_text_nonneg wl text h,
   fun wl p h => extract_page_nonneg wl p h⟩

/-- Witness for the amended C9: the extractors applied to concrete inputs
without negative integer tokens. -/
theorem C9_qty_nonneg_witness :
    (noNegIntTokens dupText = true ∧
        ∀ r ∈ extract_sku_from_packing_slip [] dupText, 0 ≤ r.2) ∧
      noNegIntTokens c8page.text = true ∧
        ∀ r ∈ extract_sku_from_page [] c8page, 0 ≤ r.2 :=
  ⟨⟨by decide, C9_qty_nonneg.1 [] dupText (by decide)⟩,
   ⟨by decide, C9_qty_nonneg.2 [] c8page (by decide)⟩⟩
